import Mathlib

/-!
The directory index of sfs-cli (`sfserver/serverlib/fslib`) and its callers.

A shallow embedding of `fslib.go`, `lib/parse_abs_path.go` and the directory
handlers of `handlers/fs_handlers.go`.

Modelling conventions.

* A Go `string` is a Lean `String`.  Go compares strings byte-wise; for valid
  UTF-8 this is the lexicographic order of the code points, which is what
  `strLt` computes.
* A `*FsDirTree` is a tree value.  The Go methods mutate the receiver in
  place; here every method returns the receiver after the call as an extra
  result.  A write to a node reached through the loop variable `currentDir`
  becomes a functional update along the path walked so far.
* `uuid.NewString()` is a supply `uuid : Nat → String` together with a counter
  that every minted identifier advances by one.
* `slices.BinarySearchFunc` is the loop of the Go standard library, run with a
  fuel equal to the length of the slice (shown to be enough below).
-/

namespace Fslib

/-! ## Go strings -/

/-- Lexicographic `<` on the characters of two strings. -/
def ltChars : List Char → List Char → Bool
  | [], [] => false
  | [], _ :: _ => true
  | _ :: _, [] => false
  | a :: as, b :: bs =>
    if a.toNat < b.toNat then true
    else if b.toNat < a.toNat then false
    else ltChars as bs

/-- Go `a < b` on strings. -/
def strLt (a b : String) : Bool := ltChars a.data b.data

/-- Split a character list at every `'/'`, as `strings.Split(s, "/")` does. -/
def splitSlash : List Char → List (List Char)
  | [] => [[]]
  | c :: cs =>
    if c = '/' then [] :: splitSlash cs
    else
      match splitSlash cs with
      | seg :: rest => (c :: seg) :: rest
      | [] => [[c]]

/-- Go `strings.Split(s, "/")`. -/
def Split (s : String) : List String := (splitSlash s.data).map String.mk

/-- Go `strings.Trim(s, "/")`: drop every leading and every trailing `'/'`. -/
def Trim (s : String) : String :=
  ⟨((s.data.dropWhile (fun c => c = '/')).reverse.dropWhile (fun c => c = '/')).reverse⟩

/-- Go `strings.Contains(s, "//")` on the characters of `s`. -/
def containsDoubleSlash : List Char → Bool
  | [] => false
  | a :: rest =>
    match rest with
    | [] => false
    | b :: _ => (a = '/' && b = '/') || containsDoubleSlash rest

/-- Go `error` values produced by the package. -/
inductive GoError where
  | ErrDirNotFound
  | Errorf (msg : String)
  deriving DecidableEq, Repr

/-- Source: `lib.ParseAbsoluteFsPath`. -/
def ParseAbsoluteFsPath (path : String) : String × Option GoError :=
  let path := Trim path
  let path := if path.data.length = 0 then "/" else path
  if containsDoubleSlash path.data then
    (path, some (GoError.Errorf "repeating slashes not allowed"))
  else
    (path, none)

/-- A canonical path is a successful output of `ParseAbsoluteFsPath`. -/
def Canonical (p : String) : Prop := ∃ raw, ParseAbsoluteFsPath raw = (p, none)

/-! ## The tree -/

/-- Source: `type FsDirTree struct`. -/
inductive FsDirTree where
  | mk (Id : String) (SubPath : String) (Children : List FsDirTree)

namespace FsDirTree

/-- Field `Id`. -/
def Id : FsDirTree → String
  | mk i _ _ => i

/-- Field `SubPath`. -/
def SubPath : FsDirTree → String
  | mk _ s _ => s

/-- Field `Children`. -/
def Children : FsDirTree → List FsDirTree
  | mk _ _ c => c

end FsDirTree

open FsDirTree

/-- Source: `NewFsDirTree`; the second component is the advanced counter. -/
def NewFsDirTree (uuid : Nat → String) (n : Nat) : FsDirTree × Nat :=
  (FsDirTree.mk (uuid n) "" [], n + 1)

/-- The comparison closure handed to `slices.BinarySearchFunc`. -/
def cmpSubPath (elem : FsDirTree) (target : String) : Int :=
  if elem.SubPath = target then 0
  else if strLt elem.SubPath target then -1
  else 1

/-- The loop of `slices.BinarySearchFunc`: the state is `(i, j)`. -/
def bsLoop (x : List FsDirTree) (target : String) : Nat → Nat → Nat → Nat
  | 0, i, _ => i
  | fuel + 1, i, j =>
    if i < j then
      match x[(i + j) / 2]? with
      | some e =>
        if cmpSubPath e target < 0 then bsLoop x target fuel ((i + j) / 2 + 1) j
        else bsLoop x target fuel i ((i + j) / 2)
      | none => i
    else i

/-- Source: `binarySearchSubPathInChildren`. -/
def binarySearchSubPathInChildren (dirTreeChildren : List FsDirTree) (subPath : String) :
    Nat × Bool :=
  let n := dirTreeChildren.length
  let i := bsLoop dirTreeChildren subPath n 0 n
  (i, match dirTreeChildren[i]? with
      | some e => decide (cmpSubPath e subPath = 0)
      | none => false)

/-- Go `slices.Insert(s, i, v)`. -/
def sliceInsert (s : List FsDirTree) (i : Nat) (v : FsDirTree) : List FsDirTree :=
  s.take i ++ v :: s.drop i

/-- The loop of `Mkdir`, started at `currentDir` with the segments still to
walk.  Results: `currentDir` after the loop, the node the loop ends on, and the
counter.  `write` is applied to the node the loop ends on: it is the identity
for a plain `Mkdir` and models a write through the returned pointer
(`*dir = *rmDirTree` in `Mvdir`) otherwise. -/
def mkdirLoop (uuid : Nat → String) (write : FsDirTree → FsDirTree) :
    List String → FsDirTree → Nat → FsDirTree × FsDirTree × Nat
  | [], currentDir, n => (write currentDir, write currentDir, n)
  | pathSegment :: rest, FsDirTree.mk id sp ch, n =>
    match binarySearchSubPathInChildren ch pathSegment with
    | (findI, true) =>
      match ch[findI]? with
      | some nextDir =>
        match mkdirLoop uuid write rest nextDir n with
        | (nextDir1, ret, n1) => (FsDirTree.mk id sp (ch.set findI nextDir1), ret, n1)
      | none => (FsDirTree.mk id sp ch, FsDirTree.mk id sp ch, n)
    | (findI, false) =>
      match mkdirLoop uuid write rest (FsDirTree.mk (uuid n) pathSegment []) (n + 1) with
      | (nextDir1, ret, n1) => (FsDirTree.mk id sp (sliceInsert ch findI nextDir1), ret, n1)

/-- The method `Mkdir` followed by a write through the pointer it returns. -/
def MkdirWrite (uuid : Nat → String) (write : FsDirTree → FsDirTree) (dirtree : FsDirTree)
    (absolutePath : String) (n : Nat) : FsDirTree × FsDirTree × Nat :=
  if absolutePath ≠ "/" then mkdirLoop uuid write (Split absolutePath) dirtree n
  else (write dirtree, write dirtree, n)

/-- Source: `FsDirTree.Mkdir`.  Results: the tree after the call, the returned
node, the counter. -/
def Mkdir (uuid : Nat → String) (dirtree : FsDirTree) (absolutePath : String) (n : Nat) :
    FsDirTree × FsDirTree × Nat :=
  MkdirWrite uuid id dirtree absolutePath n

/-- The loop of `Rmdir`.  Results: `currentDir` after the loop, the returned
node, the returned error. -/
def rmdirLoop : List String → FsDirTree → FsDirTree × FsDirTree × Option GoError
  | [], currentDir => (currentDir, currentDir, none)
  | pathSegment :: rest, FsDirTree.mk id sp ch =>
    match binarySearchSubPathInChildren ch pathSegment with
    | (_, false) => (FsDirTree.mk id sp ch, FsDirTree.mk id sp ch, some GoError.ErrDirNotFound)
    | (findI, true) =>
      match ch[findI]? with
      | some nextDir =>
        if rest.isEmpty then
          (FsDirTree.mk id sp
            (ch.take findI ++ (if findI < ch.length - 1 then ch.drop (findI + 1) else [])),
           nextDir, none)
        else
          match rmdirLoop rest nextDir with
          | (nextDir1, ret, err) => (FsDirTree.mk id sp (ch.set findI nextDir1), ret, err)
      | none => (FsDirTree.mk id sp ch, FsDirTree.mk id sp ch, some GoError.ErrDirNotFound)

/-- Source: `FsDirTree.Rmdir`.  Results: the tree after the call, the returned
node (`nil` is `none`), the returned error. -/
def Rmdir (dirtree : FsDirTree) (absolutePath : String) :
    FsDirTree × Option FsDirTree × Option GoError :=
  if absolutePath = "/" then
    (dirtree, none, some (GoError.Errorf "can't remove the root path"))
  else
    match rmdirLoop (Split absolutePath) dirtree with
    | (t, ret, err) => (t, some ret, err)

/-- The loop of `GetSubTree`. -/
def getSubTreeLoop : List String → FsDirTree → FsDirTree × Option GoError
  | [], currentDir => (currentDir, none)
  | pathSegment :: rest, currentDir =>
    match binarySearchSubPathInChildren currentDir.Children pathSegment with
    | (_, false) => (currentDir, some GoError.ErrDirNotFound)
    | (findI, true) =>
      match currentDir.Children[findI]? with
      | some nextDir => getSubTreeLoop rest nextDir
      | none => (currentDir, some GoError.ErrDirNotFound)

/-- Source: `FsDirTree.GetSubTree`. -/
def GetSubTree (dirtree : FsDirTree) (absolutePath : String) : FsDirTree × Option GoError :=
  getSubTreeLoop (Split absolutePath) dirtree

/-- The last two statements of `Mvdir`: insert `rmDirTree` among the children
of `currentDir` at the position the binary search gives for its `SubPath`. -/
def insertMoved (currentDir rmDirTree : FsDirTree) : FsDirTree :=
  FsDirTree.mk currentDir.Id currentDir.SubPath
    (sliceInsert currentDir.Children
      (binarySearchSubPathInChildren currentDir.Children rmDirTree.SubPath).1 rmDirTree)

/-- The loop of `Mvdir` together with the insertion after it.  The result is
`currentDir` after the insertion, or `none` when the loop reaches the branch
that reverts the removal. -/
def mvdirLoop (rmDirTree : FsDirTree) : List String → FsDirTree → Option FsDirTree
  | [], currentDir => some (insertMoved currentDir rmDirTree)
  | pathSegment :: rest, FsDirTree.mk id sp ch =>
    match binarySearchSubPathInChildren ch pathSegment with
    | (_, false) =>
      if rest.isEmpty then
        some (insertMoved (FsDirTree.mk id sp ch)
          (FsDirTree.mk rmDirTree.Id pathSegment rmDirTree.Children))
      else none
    | (findI, true) =>
      match ch[findI]? with
      | some nextDir =>
        match mvdirLoop rmDirTree rest nextDir with
        | some nextDir1 => some (FsDirTree.mk id sp (ch.set findI nextDir1))
        | none => none
      | none => none

/-- Source: `FsDirTree.Mvdir`.  Results: the tree after the call, the returned
error, the counter. -/
def Mvdir (uuid : Nat → String) (dirtree : FsDirTree) (oldAbsolutePath newAbsolutePath : String)
    (n : Nat) : FsDirTree × Option GoError × Nat :=
  match Rmdir dirtree oldAbsolutePath with
  | (t1, _, some rmErr) => (t1, some rmErr, n)
  | (t1, none, none) => (t1, none, n)
  | (t1, some rmDirTree, none) =>
    if newAbsolutePath ≠ "/" then
      match mvdirLoop rmDirTree (Split newAbsolutePath) t1 with
      | some t2 => (t2, none, n)
      | none =>
        match MkdirWrite uuid (fun _ => rmDirTree) t1 oldAbsolutePath n with
        | (t2, _, n1) => (t2, some GoError.ErrDirNotFound, n1)
    else (insertMoved t1 rmDirTree, none, n)

mutual
/-- Source: `FsDirTree.Walk`, with the visitor's calls collected in order. -/
def Walk : FsDirTree → List FsDirTree
  | FsDirTree.mk _ _ ch => walkChildren ch
/-- The `for _, child := range dirtree.Children` loop of `Walk`. -/
def walkChildren : List FsDirTree → List FsDirTree
  | [] => []
  | child :: rest => child :: (Walk child ++ walkChildren rest)
end

/-! ## Specification vocabulary -/

/-- Children strictly increasing by `SubPath`. -/
def SortedChildren (ch : List FsDirTree) : Prop :=
  ch.Pairwise (fun a b => strLt a.SubPath b.SubPath = true)

mutual
/-- Every node of the tree has strictly increasing children. -/
def TreeSorted : FsDirTree → Prop
  | FsDirTree.mk _ _ ch => SortedChildren ch ∧ ForestSorted ch
/-- Every tree of the list satisfies `TreeSorted`. -/
def ForestSorted : List FsDirTree → Prop
  | [] => True
  | c :: cs => TreeSorted c ∧ ForestSorted cs
end

instance (ch : List FsDirTree) : Decidable (SortedChildren ch) :=
  inferInstanceAs (Decidable (List.Pairwise _ ch))

mutual
/-- Decide `TreeSorted` by checking every node. -/
def decTreeSorted : (t : FsDirTree) → Decidable (TreeSorted t)
  | FsDirTree.mk _ _ ch =>
    @instDecidableAnd (SortedChildren ch) (ForestSorted ch) inferInstance (decForestSorted ch)
/-- Decide `ForestSorted` by checking every tree of the list. -/
def decForestSorted : (ch : List FsDirTree) → Decidable (ForestSorted ch)
  | [] => isTrue trivial
  | c :: cs => @instDecidableAnd (TreeSorted c) (ForestSorted cs) (decTreeSorted c)
      (decForestSorted cs)
end

instance (t : FsDirTree) : Decidable (TreeSorted t) := decTreeSorted t

/-- Follow the segments from a node, taking at each level the first child
whose `SubPath` is the segment (a linear search). -/
def naiveLookup : List String → FsDirTree → Option FsDirTree
  | [], t => some t
  | seg :: rest, t =>
    match t.Children.find? (fun c => decide (c.SubPath = seg)) with
    | some c => naiveLookup rest c
    | none => none

/-- The node `GetSubTree` ends on when it reports no error. -/
def resolve (segs : List String) (t : FsDirTree) : Option FsDirTree :=
  match getSubTreeLoop segs t with
  | (n, none) => some n
  | (_, some _) => none

/-- The fields of a node as Go sees them: its `Id`, its `SubPath`, and which
nodes its `Children` point to. -/
def shallow (m : FsDirTree) : String × String × List (String × String) :=
  (m.Id, m.SubPath, m.Children.map (fun c => (c.Id, c.SubPath)))

/-- No chain of children carries the segments: at some level of every walk
along them, no child has the required `SubPath`. -/
def SegmentMissing : List String → FsDirTree → Prop
  | [], _ => False
  | seg :: rest, t => ∀ c ∈ t.Children, c.SubPath = seg → SegmentMissing rest c

/-- One call on the directory index. -/
inductive Op where
  | mkdir (path : String)
  | rmdir (path : String)
  | mvdir (oldPath newPath : String)

/-- Perform one call on a tree and its identifier counter. -/
def applyOp (uuid : Nat → String) (st : FsDirTree × Nat) : Op → FsDirTree × Nat
  | Op.mkdir p => ((Mkdir uuid st.1 p st.2).1, (Mkdir uuid st.1 p st.2).2.2)
  | Op.rmdir p => ((Rmdir st.1 p).1, st.2)
  | Op.mvdir o n => ((Mvdir uuid st.1 o n st.2).1, (Mvdir uuid st.1 o n st.2).2.2)

/-- Perform a sequence of calls, starting from `NewFsDirTree()`. -/
def runOps (uuid : Nat → String) (ops : List Op) : FsDirTree × Nat :=
  ops.foldl (applyOp uuid) (NewFsDirTree uuid 0)

/-! ## The remove handler -/

/-- Go `err.Error()`. -/
def GoError.Error : GoError → String
  | GoError.ErrDirNotFound => "dirtree path not found"
  | GoError.Errorf msg => msg

/-- Source: `models.FsFile`; a `*time.Time` is an optional instant. -/
structure FsFile where
  StorageId : String
  FileSystemId : String
  DirId : String
  Name : String
  FileSize : Option Int
  FileType : Option String
  IsEncrypted : Bool
  IsPublic : Bool
  DeletedAt : Option Nat
  deriving DecidableEq, Repr

/-- What a handler sends: a `WriteHeader(status)` with a message body, or a
body carrying the tree. -/
inductive Reply where
  | Message (status : Nat) (msg : String)
  | Data (dirtree : FsDirTree)

/-- What a handler acts on: the tree of the request, the persisted
`dir_tree_json` of the tenant (the tree it encodes), and the file table. -/
structure Store where
  dirtree : FsDirTree
  DirTreeJson : FsDirTree
  files : List FsFile

/-- Which calls to the database return an error. -/
structure DbFaults where
  softDelete : Bool
  count : Bool
  saveTree : Bool

/-- No database call fails. -/
def noFaults : DbFaults := ⟨false, false, false⟩

/-- Source: `updateFsDirTree`; `true` stands for a returned error. -/
def updateFsDirTree (faults : DbFaults) (st : Store) : Store × Bool :=
  if faults.saveTree then (st, true)
  else ({ st with DirTreeJson := st.dirtree }, false)

/-- The `Updates` of the forced branch: set `deleted_at` on the rows of the
tenant whose `dir_id` is in `rmDirIds`. -/
def softDeleteFiles (fsId : String) (rmDirIds : List String) (nowTime : Nat)
    (files : List FsFile) : List FsFile :=
  files.map (fun f =>
    if f.FileSystemId = fsId ∧ f.DirId ∈ rmDirIds then { f with DeletedAt := some nowTime }
    else f)

/-- The `Count` of the plain branch: rows of the tenant with this `dir_id`. -/
def countFiles (fsId dirId : String) (files : List FsFile) : Nat :=
  (files.filter (fun f => decide (f.FileSystemId = fsId ∧ f.DirId = dirId))).length

/-- The part of `HandlePostRmdir` after the path has been fixed. -/
def rmdirAfterParse (fsId path : String) (opts : List String) (nowTime : Nat)
    (faults : DbFaults) (st : Store) (sent : List Reply) : Store × List Reply :=
  match GetSubTree st.dirtree path with
  | (_, some dirTreeErr) => (st, sent ++ [Reply.Message 500 dirTreeErr.Error])
  | (currentDir, none) =>
    let guarded : Option Store × List Reply :=
      if opts.contains "force" then
        let rmDirIds := (Walk currentDir).map FsDirTree.Id
        if faults.softDelete then
          (none, [Reply.Message 500 "failed deleting files in all the subdirectories"])
        else (some { st with files := softDeleteFiles fsId rmDirIds nowTime st.files }, [])
      else if currentDir.Children.length > 0 then
        (none, [Reply.Message 400 "directory contains subdirectories"])
      else if faults.count then
        (none, [Reply.Message 400 "could not fetch files under the directory"])
      else if countFiles fsId currentDir.Id st.files > 0 then
        (none, [Reply.Message 400 "dir not empty"])
      else (some st, [])
    match guarded with
    | (none, msgs) => (st, sent ++ msgs)
    | (some st1, _) =>
      match Rmdir st1.dirtree path with
      | (t1, _, some _) =>
        ({ st1 with dirtree := t1 },
          sent ++ [Reply.Message 500 "unexpected error occured while removing the directory"])
      | (t1, _, none) =>
        match updateFsDirTree faults { st1 with dirtree := t1 } with
        | (st2, true) =>
          (st2, sent ++ [Reply.Message 400 "unexpected error occured while updating dirtree"])
        | (st2, false) => (st2, sent ++ [Reply.Data st2.dirtree])

/-- Source: `HandlePostRmdir`, from the parsed request body on.  After the
reply for the root path the source does not return: it goes on with the path
as it came in the request. -/
def HandlePostRmdir (fsId reqPath : String) (opts : List String) (nowTime : Nat)
    (faults : DbFaults) (st : Store) : Store × List Reply :=
  match ParseAbsoluteFsPath reqPath with
  | (_, some err) => (st, [Reply.Message 400 err.Error])
  | (path, none) =>
    if path = "/" then
      rmdirAfterParse fsId reqPath opts nowTime faults st
        [Reply.Message 400 "cannot remove '/' directory, it's the root path"]
    else rmdirAfterParse fsId path opts nowTime faults st []

/-! ## Test trees -/

/-- A tree with `a`, `a/b` and `c`. -/
def testTree : FsDirTree :=
  FsDirTree.mk "r" "" [FsDirTree.mk "1" "a" [FsDirTree.mk "2" "b" []], FsDirTree.mk "3" "c" []]

/-- A file record of tenant `fs1` in the directory with the given id. -/
def testFile (storageId dirId : String) : FsFile :=
  ⟨storageId, "fs1", dirId, storageId, none, none, false, false, none⟩

/-- The tree `testTree` with one file in `a` and one file in `a/b`. -/
def testStore : Store :=
  ⟨testTree, testTree, [testFile "f1" "1", testFile "f2" "2"]⟩


/-- A fixed identifier supply for examples. -/
def testUuid (n : Nat) : String := String.mk (List.replicate (n + 1) 'u')


/-! ## Vocabulary for the traversal -/

mutual
/-- Number of nodes of a tree, the root included. -/
def countNodes : FsDirTree → Nat
  | FsDirTree.mk _ _ ch => 1 + countForest ch
/-- Number of nodes of a list of trees. -/
def countForest : List FsDirTree → Nat
  | [] => 0
  | c :: cs => countNodes c + countForest cs
end

/-- `Descendant d r`: the node `d` is a proper descendant of `r`. -/
inductive Descendant : FsDirTree → FsDirTree → Prop where
  | child {d r : FsDirTree} : d ∈ r.Children → Descendant d r
  | deeper {d c r : FsDirTree} : c ∈ r.Children → Descendant d c → Descendant d r

/-! ## The create handler -/

/-- The value of `reqBody.Path` after the parse step of `HandlePostRmdir` and
`HandlePostMkdir` when the parse returns no error: the canonical path, or, for
the root, the path as it came in the request (that branch replies and assigns
nothing). -/
def requestPath (reqPath : String) : String :=
  if (ParseAbsoluteFsPath reqPath).1 = "/" then reqPath else (ParseAbsoluteFsPath reqPath).1

/-- Whether a reply carries the tree (the success body). -/
def Reply.isData : Reply → Bool
  | Reply.Message _ _ => false
  | Reply.Data _ => true

/-- The status written with a message reply. -/
def Reply.status : Reply → Option Nat
  | Reply.Message s _ => some s
  | Reply.Data _ => none

/-- Source: `HandlePostMkdir`, from the parsed request body on.  After the
reply for the root path the source does not return: it goes on with the path
as it came in the request.  Results: the store, the replies, the counter. -/
def HandlePostMkdir (uuid : Nat → String) (reqPath : String) (faults : DbFaults) (st : Store)
    (n : Nat) : Store × List Reply × Nat :=
  match ParseAbsoluteFsPath reqPath with
  | (_, some err) => (st, [Reply.Message 400 err.Error], n)
  | (path, none) =>
    let sent : List Reply :=
      if path = "/" then [Reply.Message 400 "cannot create '/' directory, already exists"]
      else []
    let reqPath1 : String := if path = "/" then reqPath else path
    match Mkdir uuid st.dirtree reqPath1 n with
    | (t1, _, n1) =>
      match updateFsDirTree faults { st with dirtree := t1 } with
      | (st2, true) =>
        (st2, sent ++ [Reply.Message 400 "unexpected error occured while updating dirtree"], n1)
      | (st2, false) => (st2, sent ++ [Reply.Data st2.dirtree], n1)

/-! ## The order on Go strings -/

theorem ltChars_irrefl (a : List Char) : ltChars a a = false := by
  induction a with
  | nil => rfl
  | cons c cs ih => simp [ltChars, ih]

theorem ltChars_trans : ∀ (a b c : List Char),
    ltChars a b = true → ltChars b c = true → ltChars a c = true
  | [], [], _, h, _ => by simp [ltChars] at h
  | [], _ :: _, [], _, h => by simp [ltChars] at h
  | [], _ :: _, _ :: _, _, _ => by simp [ltChars]
  | _ :: _, [], _, h, _ => by simp [ltChars] at h
  | _ :: _, _ :: _, [], _, h => by simp [ltChars] at h
  | x :: xs, y :: ys, z :: zs, h1, h2 => by
    simp only [ltChars] at h1 h2 ⊢
    split_ifs at h1 h2 ⊢ <;>
      first
      | rfl
      | omega
      | exact ltChars_trans xs ys zs h1 h2

theorem char_eq_of_toNat_eq {x y : Char} (h : x.toNat = y.toNat) : x = y := by
  apply Char.ext
  apply UInt32.ext
  exact h

theorem ltChars_connected : ∀ (a b : List Char),
    ltChars a b = false → ltChars b a = false → a = b
  | [], [], _, _ => rfl
  | [], _ :: _, h, _ => by simp [ltChars] at h
  | _ :: _, [], _, h => by simp [ltChars] at h
  | x :: xs, y :: ys, h1, h2 => by
    simp only [ltChars] at h1 h2
    split_ifs at h1 h2 with c1 c2
    · have hxy : x = y := char_eq_of_toNat_eq (by omega)
      rw [hxy, ltChars_connected xs ys h1 h2]

theorem strLt_irrefl (a : String) : strLt a a = false := ltChars_irrefl a.data

theorem strLt_trans {a b c : String} (h1 : strLt a b = true) (h2 : strLt b c = true) :
    strLt a c = true := ltChars_trans _ _ _ h1 h2

theorem strLt_connected {a b : String} (h1 : strLt a b = false) (h2 : strLt b a = false) :
    a = b := String.ext (ltChars_connected _ _ h1 h2)

theorem strLt_asymm {a b : String} (h : strLt a b = true) : strLt b a = false := by
  cases hb : strLt b a with
  | false => rfl
  | true => have := strLt_trans h hb; rw [strLt_irrefl] at this; cases this

theorem strLt_ne {a b : String} (h : strLt a b = true) : a ≠ b := by
  intro e; subst e; rw [strLt_irrefl] at h; cases h

/-! ## Binary search -/

theorem cmpSubPath_neg_iff (e : FsDirTree) (t : String) :
    cmpSubPath e t < 0 ↔ strLt e.SubPath t = true := by
  unfold cmpSubPath
  by_cases h : e.SubPath = t
  · simp [h, strLt_irrefl]
  · by_cases h2 : strLt e.SubPath t = true
    · simp [h, h2]
    · simp [h, h2]

theorem cmpSubPath_zero_iff (e : FsDirTree) (t : String) :
    cmpSubPath e t = 0 ↔ e.SubPath = t := by
  unfold cmpSubPath
  by_cases h : e.SubPath = t
  · simp [h]
  · by_cases h2 : strLt e.SubPath t = true
    · simp [h, h2]
    · simp [h, h2]

/-- The fuel does not matter once it covers the width of the window. -/
theorem bsLoop_fuel (x : List FsDirTree) (t : String) :
    ∀ (f1 f2 i j : Nat), j - i ≤ f1 → j - i ≤ f2 → bsLoop x t f1 i j = bsLoop x t f2 i j := by
  intro f1
  induction f1 with
  | zero =>
    intro f2 i j h1 _
    cases f2 with
    | zero => rfl
    | succ f2 =>
      have : ¬ i < j := by omega
      simp [bsLoop, this]
  | succ f1 ih =>
    intro f2 i j h1 h2
    cases f2 with
    | zero =>
      have : ¬ i < j := by omega
      simp [bsLoop, this]
    | succ f2 =>
      simp only [bsLoop]
      by_cases hij : i < j
      · simp only [hij, if_true]
        cases x[(i + j) / 2]? with
        | none => rfl
        | some e =>
          simp only
          split_ifs
          · exact ih _ _ _ (by omega) (by omega)
          · exact ih _ _ _ (by omega) (by omega)
      · simp [hij]

/-- On a slice made of elements below the target followed by elements not
below it, the loop stops at the boundary. -/
theorem bsLoop_partition (l1 l2 : List FsDirTree) (t : String)
    (h1 : ∀ a ∈ l1, strLt a.SubPath t = true) (h2 : ∀ b ∈ l2, strLt b.SubPath t = false) :
    ∀ (fuel i j : Nat), i ≤ l1.length → l1.length ≤ j → j ≤ (l1 ++ l2).length → j - i ≤ fuel →
      bsLoop (l1 ++ l2) t fuel i j = l1.length := by
  intro fuel
  induction fuel with
  | zero => intro i j hi hj _ hf; simp only [bsLoop]; omega
  | succ fuel ih =>
    intro i j hi hj hlen hf
    simp only [bsLoop]
    by_cases hij : i < j
    · simp only [hij, if_true]
      have hh : (i + j) / 2 < (l1 ++ l2).length := by omega
      rw [List.getElem?_eq_getElem hh]
      simp only
      by_cases hl : (i + j) / 2 < l1.length
      · have hlt : strLt ((l1 ++ l2)[(i + j) / 2]).SubPath t = true := by
          rw [List.getElem_append_left hl]
          exact h1 _ (List.getElem_mem _)
        rw [if_pos ((cmpSubPath_neg_iff _ _).2 hlt)]
        exact ih _ _ (by omega) hj hlen (by omega)
      · have hge : l1.length ≤ (i + j) / 2 := by omega
        have hlt : strLt ((l1 ++ l2)[(i + j) / 2]).SubPath t = false := by
          rw [List.getElem_append_right hge]
          exact h2 _ (List.getElem_mem _)
        have hn : ¬ cmpSubPath ((l1 ++ l2)[(i + j) / 2]) t < 0 := by
          rw [cmpSubPath_neg_iff, hlt]; simp
        rw [if_neg hn]
        exact ih _ _ hi hge (by omega) (by omega)
    · simp only [hij, if_false]; omega

theorem bs_partition (l1 l2 : List FsDirTree) (t : String)
    (h1 : ∀ a ∈ l1, strLt a.SubPath t = true) (h2 : ∀ b ∈ l2, strLt b.SubPath t = false) :
    binarySearchSubPathInChildren (l1 ++ l2) t =
      (l1.length, match l2 with
        | [] => false
        | b :: _ => decide (b.SubPath = t)) := by
  unfold binarySearchSubPathInChildren
  simp only
  rw [bsLoop_partition l1 l2 t h1 h2 _ 0 _ (by omega) (by simp) (le_refl _) (by omega)]
  cases l2 with
  | nil => simp
  | cons b l2 =>
    have hb : (l1 ++ b :: l2)[l1.length]? = some b := by
      rw [List.getElem?_append_right (le_refl _)]; simp
    rw [hb]
    simp [cmpSubPath_zero_iff]

/-- A reported hit is an element with the searched name, at the reported index. -/
theorem bs_found {ch : List FsDirTree} {t : String} {i : Nat}
    (h : binarySearchSubPathInChildren ch t = (i, true)) :
    ∃ c, ch[i]? = some c ∧ c.SubPath = t := by
  unfold binarySearchSubPathInChildren at h
  simp only [Prod.mk.injEq] at h
  obtain ⟨hi, hf⟩ := h
  rw [hi] at hf
  cases hc : ch[i]? with
  | none => rw [hc] at hf; simp at hf
  | some c =>
    rw [hc] at hf
    exact ⟨c, rfl, (cmpSubPath_zero_iff c t).1 (by simpa using hf)⟩

theorem sorted_split {ch : List FsDirTree} (hs : SortedChildren ch) (t : String) :
    ∃ l1 l2, ch = l1 ++ l2 ∧ (∀ a ∈ l1, strLt a.SubPath t = true) ∧
      (∀ b ∈ l2, strLt b.SubPath t = false) := by
  induction ch with
  | nil => exact ⟨[], [], rfl, by simp, by simp⟩
  | cons c cs ih =>
    have hs2 := List.pairwise_cons.1 hs
    by_cases hc : strLt c.SubPath t = true
    · obtain ⟨l1, l2, e, a1, a2⟩ := ih hs2.2
      refine ⟨c :: l1, l2, by simp [e], ?_, a2⟩
      intro a ha
      rcases List.mem_cons.1 ha with rfl | ha
      · exact hc
      · exact a1 a ha
    · refine ⟨[], c :: cs, rfl, by simp, ?_⟩
      intro b hb
      rcases List.mem_cons.1 hb with rfl | hb
      · simpa using hc
      · cases hbt : strLt b.SubPath t with
        | false => rfl
        | true => exact absurd (strLt_trans (hs2.1 b hb) hbt) hc

/-- The two outcomes of the search on strictly increasing children. -/
theorem bs_cases {ch : List FsDirTree} (hs : SortedChildren ch) (t : String) :
    (∃ l1 c l2, ch = l1 ++ c :: l2 ∧ c.SubPath = t ∧
        binarySearchSubPathInChildren ch t = (l1.length, true)) ∨
    (∃ l1 l2, ch = l1 ++ l2 ∧ (∀ a ∈ l1, strLt a.SubPath t = true) ∧
        (∀ b ∈ l2, strLt t b.SubPath = true) ∧
        binarySearchSubPathInChildren ch t = (l1.length, false)) := by
  obtain ⟨l1, l2, e, a1, a2⟩ := sorted_split hs t
  subst e
  cases l2 with
  | nil =>
    right
    exact ⟨l1, [], rfl, a1, by simp, by rw [bs_partition l1 [] t a1 a2]⟩
  | cons b l2 =>
    by_cases hb : b.SubPath = t
    · left
      exact ⟨l1, b, l2, rfl, hb, by rw [bs_partition l1 (b :: l2) t a1 a2]; simp [hb]⟩
    · right
      have hsb := (List.pairwise_append.1 hs).2.1
      have hsb2 := List.pairwise_cons.1 hsb
      have hbt : strLt t b.SubPath = true := by
        cases h : strLt t b.SubPath with
        | true => rfl
        | false =>
          exact absurd (strLt_connected (a2 b (List.mem_cons_self _ _)) h) hb
      refine ⟨l1, b :: l2, rfl, a1, ?_, by rw [bs_partition l1 (b :: l2) t a1 a2]; simp [hb]⟩
      intro x hx
      rcases List.mem_cons.1 hx with rfl | hx
      · exact hbt
      · exact strLt_trans hbt (hsb2.1 x hx)

theorem sorted_mid {l1 l2 : List FsDirTree} {c : FsDirTree}
    (hs : SortedChildren (l1 ++ c :: l2)) :
    (∀ a ∈ l1, strLt a.SubPath c.SubPath = true) ∧
      (∀ b ∈ l2, strLt c.SubPath b.SubPath = true) := by
  have h := List.pairwise_append.1 hs
  exact ⟨fun a ha => h.2.2 a ha c (List.mem_cons_self _ _), (List.pairwise_cons.1 h.2.1).1⟩

/-- On strictly increasing children a present name is found where it is. -/
theorem bs_hit {l1 l2 : List FsDirTree} {c : FsDirTree}
    (hs : SortedChildren (l1 ++ c :: l2)) :
    binarySearchSubPathInChildren (l1 ++ c :: l2) c.SubPath = (l1.length, true) := by
  have hm := sorted_mid hs
  rw [bs_partition l1 (c :: l2) c.SubPath hm.1]
  · simp
  · intro b hb
    rcases List.mem_cons.1 hb with rfl | hb
    · exact strLt_irrefl _
    · exact strLt_asymm (hm.2 b hb)

/-- A name strictly between the two halves is not found, at the boundary. -/
theorem bs_miss {l1 l2 : List FsDirTree} {t : String}
    (h1 : ∀ a ∈ l1, strLt a.SubPath t = true) (h2 : ∀ b ∈ l2, strLt t b.SubPath = true) :
    binarySearchSubPathInChildren (l1 ++ l2) t = (l1.length, false) := by
  rw [bs_partition l1 l2 t h1 (fun b hb => strLt_asymm (h2 b hb))]
  cases l2 with
  | nil => rfl
  | cons b l2 =>
    have : b.SubPath ≠ t := fun e => (strLt_ne (h2 b (List.mem_cons_self _ _))) e.symm
    simp [this]

theorem sorted_insert {l1 l2 : List FsDirTree} {c : FsDirTree}
    (hs : SortedChildren (l1 ++ l2))
    (h1 : ∀ a ∈ l1, strLt a.SubPath c.SubPath = true)
    (h2 : ∀ b ∈ l2, strLt c.SubPath b.SubPath = true) :
    SortedChildren (l1 ++ c :: l2) := by
  have h := List.pairwise_append.1 hs
  refine List.pairwise_append.2 ⟨h.1, List.pairwise_cons.2 ⟨h2, h.2.1⟩, ?_⟩
  intro a ha b hb
  rcases List.mem_cons.1 hb with rfl | hb
  · exact h1 a ha
  · exact h.2.2 a ha b hb

theorem sorted_remove {l1 l2 : List FsDirTree} {c : FsDirTree}
    (hs : SortedChildren (l1 ++ c :: l2)) : SortedChildren (l1 ++ l2) := by
  have h := List.pairwise_append.1 hs
  refine List.pairwise_append.2 ⟨h.1, (List.pairwise_cons.1 h.2.1).2, ?_⟩
  intro a ha b hb
  exact h.2.2 a ha b (List.mem_cons_of_mem _ hb)

theorem sorted_replace {l1 l2 : List FsDirTree} {c d : FsDirTree}
    (hs : SortedChildren (l1 ++ c :: l2)) (hd : d.SubPath = c.SubPath) :
    SortedChildren (l1 ++ d :: l2) := by
  have hm := sorted_mid hs
  exact sorted_insert (sorted_remove hs) (by rw [hd]; exact hm.1) (by rw [hd]; exact hm.2)

/-! ## Slices around a known element -/

theorem getElem?_mid (l1 l2 : List FsDirTree) (c : FsDirTree) :
    (l1 ++ c :: l2)[l1.length]? = some c := by
  rw [List.getElem?_append_right (le_refl _)]; simp

theorem set_mid (l1 l2 : List FsDirTree) (c d : FsDirTree) :
    (l1 ++ c :: l2).set l1.length d = l1 ++ d :: l2 := by
  induction l1 with
  | nil => rfl
  | cons a l1 ih => simp [ih]

theorem remove_mid (l1 l2 : List FsDirTree) (c : FsDirTree) :
    (l1 ++ c :: l2).take l1.length ++
      (if l1.length < (l1 ++ c :: l2).length - 1 then (l1 ++ c :: l2).drop (l1.length + 1)
       else []) = l1 ++ l2 := by
  have ht : (l1 ++ c :: l2).take l1.length = l1 := by simp
  have hd : (l1 ++ c :: l2).drop (l1.length + 1) = l2 := by
    induction l1 with
    | nil => rfl
    | cons a l1 ih => simp
  rw [ht, hd]
  by_cases h : l1.length < (l1 ++ c :: l2).length - 1
  · rw [if_pos h]
  · rw [if_neg h]
    have : l2.length = 0 := by
      simp only [List.length_append, List.length_cons] at h; omega
    rw [List.length_eq_zero.1 this]

theorem sliceInsert_mid (l1 l2 : List FsDirTree) (c : FsDirTree) :
    sliceInsert (l1 ++ l2) l1.length c = l1 ++ c :: l2 := by
  simp [sliceInsert]

/-! ## The representation invariant -/

theorem forestSorted_iff (ch : List FsDirTree) :
    ForestSorted ch ↔ ∀ c ∈ ch, TreeSorted c := by
  induction ch with
  | nil => simp [ForestSorted]
  | cons c cs ih => simp [ForestSorted, ih]

theorem treeSorted_mk (i s : String) (ch : List FsDirTree) :
    TreeSorted (FsDirTree.mk i s ch) ↔ SortedChildren ch ∧ ∀ c ∈ ch, TreeSorted c := by
  rw [TreeSorted, forestSorted_iff]

theorem treeSorted_leaf (i s : String) : TreeSorted (FsDirTree.mk i s []) := by
  rw [treeSorted_mk]; exact ⟨List.Pairwise.nil, by simp⟩

theorem treeSorted_replace {i s : String} {l1 l2 : List FsDirTree} {c d : FsDirTree}
    (h : TreeSorted (FsDirTree.mk i s (l1 ++ c :: l2))) (hd : TreeSorted d)
    (hsp : d.SubPath = c.SubPath) : TreeSorted (FsDirTree.mk i s (l1 ++ d :: l2)) := by
  rw [treeSorted_mk] at h ⊢
  refine ⟨sorted_replace h.1 hsp, ?_⟩
  intro x hx
  rcases List.mem_append.1 hx with hx | hx
  · exact h.2 x (List.mem_append_left _ hx)
  · rcases List.mem_cons.1 hx with rfl | hx
    · exact hd
    · exact h.2 x (List.mem_append_right _ (List.mem_cons_of_mem _ hx))

theorem treeSorted_insert {i s : String} {l1 l2 : List FsDirTree} {d : FsDirTree}
    (h : TreeSorted (FsDirTree.mk i s (l1 ++ l2))) (hd : TreeSorted d)
    (h1 : ∀ a ∈ l1, strLt a.SubPath d.SubPath = true)
    (h2 : ∀ b ∈ l2, strLt d.SubPath b.SubPath = true) :
    TreeSorted (FsDirTree.mk i s (l1 ++ d :: l2)) := by
  rw [treeSorted_mk] at h ⊢
  refine ⟨sorted_insert h.1 h1 h2, ?_⟩
  intro x hx
  rcases List.mem_append.1 hx with hx | hx
  · exact h.2 x (List.mem_append_left _ hx)
  · rcases List.mem_cons.1 hx with rfl | hx
    · exact hd
    · exact h.2 x (List.mem_append_right _ hx)

theorem treeSorted_remove {i s : String} {l1 l2 : List FsDirTree} {c : FsDirTree}
    (h : TreeSorted (FsDirTree.mk i s (l1 ++ c :: l2))) :
    TreeSorted (FsDirTree.mk i s (l1 ++ l2)) ∧ TreeSorted c := by
  rw [treeSorted_mk] at h ⊢
  refine ⟨⟨sorted_remove h.1, ?_⟩, h.2 c (by simp)⟩
  intro x hx
  rcases List.mem_append.1 hx with hx | hx
  · exact h.2 x (List.mem_append_left _ hx)
  · exact h.2 x (List.mem_append_right _ (List.mem_cons_of_mem _ hx))

/-! ## One step of each loop -/

theorem mkdirLoop_hit (uuid : Nat → String) (w : FsDirTree → FsDirTree) (seg : String)
    (rest : List String) (i s : String) (l1 l2 : List FsDirTree) (c : FsDirTree) (n : Nat)
    (hb : binarySearchSubPathInChildren (l1 ++ c :: l2) seg = (l1.length, true)) :
    mkdirLoop uuid w (seg :: rest) (FsDirTree.mk i s (l1 ++ c :: l2)) n =
      (FsDirTree.mk i s (l1 ++ (mkdirLoop uuid w rest c n).1 :: l2),
       (mkdirLoop uuid w rest c n).2.1, (mkdirLoop uuid w rest c n).2.2) := by
  simp only [mkdirLoop, hb, getElem?_mid, set_mid]

theorem mkdirLoop_miss (uuid : Nat → String) (w : FsDirTree → FsDirTree) (seg : String)
    (rest : List String) (i s : String) (l1 l2 : List FsDirTree) (n : Nat)
    (hb : binarySearchSubPathInChildren (l1 ++ l2) seg = (l1.length, false)) :
    mkdirLoop uuid w (seg :: rest) (FsDirTree.mk i s (l1 ++ l2)) n =
      (FsDirTree.mk i s
        (l1 ++ (mkdirLoop uuid w rest (FsDirTree.mk (uuid n) seg []) (n + 1)).1 :: l2),
       (mkdirLoop uuid w rest (FsDirTree.mk (uuid n) seg []) (n + 1)).2.1,
       (mkdirLoop uuid w rest (FsDirTree.mk (uuid n) seg []) (n + 1)).2.2) := by
  simp only [mkdirLoop, hb, sliceInsert_mid]

theorem rmdirLoop_hit_last (seg : String) (i s : String) (l1 l2 : List FsDirTree)
    (c : FsDirTree)
    (hb : binarySearchSubPathInChildren (l1 ++ c :: l2) seg = (l1.length, true)) :
    rmdirLoop [seg] (FsDirTree.mk i s (l1 ++ c :: l2)) =
      (FsDirTree.mk i s (l1 ++ l2), c, none) := by
  simp only [rmdirLoop, hb, getElem?_mid, remove_mid, List.isEmpty_nil, if_true]

theorem rmdirLoop_hit (seg seg2 : String) (rest : List String) (i s : String)
    (l1 l2 : List FsDirTree) (c : FsDirTree)
    (hb : binarySearchSubPathInChildren (l1 ++ c :: l2) seg = (l1.length, true)) :
    rmdirLoop (seg :: seg2 :: rest) (FsDirTree.mk i s (l1 ++ c :: l2)) =
      (FsDirTree.mk i s (l1 ++ (rmdirLoop (seg2 :: rest) c).1 :: l2),
       (rmdirLoop (seg2 :: rest) c).2.1, (rmdirLoop (seg2 :: rest) c).2.2) := by
  rw [rmdirLoop]
  simp only [hb, getElem?_mid, set_mid, List.isEmpty_cons, Bool.false_eq_true, if_false]

theorem rmdirLoop_miss (seg : String) (rest : List String) (i s : String)
    (ch : List FsDirTree) (k : Nat)
    (hb : binarySearchSubPathInChildren ch seg = (k, false)) :
    rmdirLoop (seg :: rest) (FsDirTree.mk i s ch) =
      (FsDirTree.mk i s ch, FsDirTree.mk i s ch, some GoError.ErrDirNotFound) := by
  simp only [rmdirLoop, hb]

theorem getSubTreeLoop_hit (seg : String) (rest : List String) (i s : String)
    (l1 l2 : List FsDirTree) (c : FsDirTree)
    (hb : binarySearchSubPathInChildren (l1 ++ c :: l2) seg = (l1.length, true)) :
    getSubTreeLoop (seg :: rest) (FsDirTree.mk i s (l1 ++ c :: l2)) = getSubTreeLoop rest c := by
  simp only [getSubTreeLoop, FsDirTree.Children, hb, getElem?_mid]

theorem getSubTreeLoop_miss (seg : String) (rest : List String) (t : FsDirTree) (k : Nat)
    (hb : binarySearchSubPathInChildren t.Children seg = (k, false)) :
    getSubTreeLoop (seg :: rest) t = (t, some GoError.ErrDirNotFound) := by
  simp only [getSubTreeLoop, hb]

theorem mvdirLoop_hit (rm : FsDirTree) (seg : String) (rest : List String) (i s : String)
    (l1 l2 : List FsDirTree) (c : FsDirTree)
    (hb : binarySearchSubPathInChildren (l1 ++ c :: l2) seg = (l1.length, true)) :
    mvdirLoop rm (seg :: rest) (FsDirTree.mk i s (l1 ++ c :: l2)) =
      (mvdirLoop rm rest c).map (fun c1 => FsDirTree.mk i s (l1 ++ c1 :: l2)) := by
  simp only [mvdirLoop, hb, getElem?_mid, set_mid]
  cases mvdirLoop rm rest c <;> rfl

theorem mvdirLoop_miss_last (rm : FsDirTree) (seg : String) (i s : String)
    (l1 l2 : List FsDirTree)
    (hb : binarySearchSubPathInChildren (l1 ++ l2) seg = (l1.length, false)) :
    mvdirLoop rm [seg] (FsDirTree.mk i s (l1 ++ l2)) =
      some (FsDirTree.mk i s (l1 ++ FsDirTree.mk rm.Id seg rm.Children :: l2)) := by
  simp only [mvdirLoop, hb, List.isEmpty_nil, if_true, insertMoved, FsDirTree.Children,
    FsDirTree.SubPath, FsDirTree.Id, sliceInsert_mid]

theorem mvdirLoop_miss (rm : FsDirTree) (seg seg2 : String) (rest : List String)
    (i s : String) (ch : List FsDirTree) (k : Nat)
    (hb : binarySearchSubPathInChildren ch seg = (k, false)) :
    mvdirLoop rm (seg :: seg2 :: rest) (FsDirTree.mk i s ch) = none := by
  rw [mvdirLoop]
  simp only [hb, List.isEmpty_cons, Bool.false_eq_true, if_false]

/-! ## Lookup by linear search -/

theorem find_hit {l1 l2 : List FsDirTree} {c : FsDirTree}
    (hs : SortedChildren (l1 ++ c :: l2)) :
    (l1 ++ c :: l2).find? (fun x => decide (x.SubPath = c.SubPath)) = some c := by
  have hm := sorted_mid hs
  rw [List.find?_append]
  have : l1.find? (fun x => decide (x.SubPath = c.SubPath)) = none := by
    rw [List.find?_eq_none]
    intro a ha
    simpa using strLt_ne (hm.1 a ha)
  rw [this]
  simp

theorem find_miss {l1 l2 : List FsDirTree} {t : String}
    (h1 : ∀ a ∈ l1, strLt a.SubPath t = true) (h2 : ∀ b ∈ l2, strLt t b.SubPath = true) :
    (l1 ++ l2).find? (fun x => decide (x.SubPath = t)) = none := by
  rw [List.find?_eq_none]
  intro a ha
  rcases List.mem_append.1 ha with ha | ha
  · simpa using strLt_ne (h1 a ha)
  · simpa using fun e => strLt_ne (h2 a ha) (Eq.symm e)

theorem getSubTreeLoop_err (segs : List String) (t : FsDirTree) :
    (getSubTreeLoop segs t).2 = none ∨ (getSubTreeLoop segs t).2 = some GoError.ErrDirNotFound := by
  induction segs generalizing t with
  | nil => left; rfl
  | cons seg rest ih =>
    rw [getSubTreeLoop]
    rcases hb : binarySearchSubPathInChildren t.Children seg with ⟨k, f⟩
    cases f with
    | false => right; rfl
    | true =>
      simp only
      cases t.Children[k]? with
      | none => right; rfl
      | some c => exact ih c

theorem resolve_eq_naive (segs : List String) (t : FsDirTree) (hs : TreeSorted t) :
    resolve segs t = naiveLookup segs t := by
  induction segs generalizing t with
  | nil => rfl
  | cons seg rest ih =>
    obtain ⟨i, s, ch⟩ := t
    rw [treeSorted_mk] at hs
    rcases bs_cases hs.1 seg with ⟨l1, c, l2, e, hc, hb⟩ | ⟨l1, l2, e, h1, h2, hb⟩
    · subst e
      have hf := find_hit hs.1
      rw [hc] at hf
      have := ih c (hs.2 c (by simp))
      unfold resolve at this ⊢
      rw [getSubTreeLoop_hit seg rest i s l1 l2 c hb, this]
      simp only [naiveLookup, FsDirTree.Children, hf]
    · subst e
      unfold resolve
      rw [getSubTreeLoop_miss seg rest (FsDirTree.mk i s (l1 ++ l2)) _ hb]
      simp only [naiveLookup, FsDirTree.Children, find_miss h1 h2]

theorem find_skip {l1 l2 : List FsDirTree} {d : FsDirTree} {t : String} (h : d.SubPath ≠ t) :
    (l1 ++ d :: l2).find? (fun x => decide (x.SubPath = t)) =
      (l1 ++ l2).find? (fun x => decide (x.SubPath = t)) := by
  rw [List.find?_append, List.find?_append, List.find?_cons]
  simp [h]

theorem naiveLookup_append (q s : List String) (t : FsDirTree) :
    naiveLookup (q ++ s) t = (naiveLookup q t).bind (naiveLookup s) := by
  induction q generalizing t with
  | nil => rfl
  | cons x q ih =>
    simp only [List.cons_append, naiveLookup]
    cases t.Children.find? (fun c => decide (c.SubPath = x)) with
    | none => rfl
    | some c => exact ih c

theorem resolve_some_iff (segs : List String) (t n : FsDirTree) :
    resolve segs t = some n ↔ getSubTreeLoop segs t = (n, none) := by
  unfold resolve
  rcases h : getSubTreeLoop segs t with ⟨m, e⟩
  cases e with
  | none => simp
  | some e => simp

theorem resolve_none_iff (segs : List String) (t : FsDirTree) :
    resolve segs t = none ↔ (getSubTreeLoop segs t).2 = some GoError.ErrDirNotFound := by
  unfold resolve
  have he := getSubTreeLoop_err segs t
  rcases h : getSubTreeLoop segs t with ⟨m, e⟩
  rw [h] at he
  cases e with
  | none => simp
  | some e => simpa using he

/-! ## Mkdir -/

theorem mkdirLoop_root (uuid : Nat → String) (segs : List String) (t : FsDirTree) (n : Nat) :
    (mkdirLoop uuid id segs t n).1.Id = t.Id ∧
      (mkdirLoop uuid id segs t n).1.SubPath = t.SubPath := by
  cases segs with
  | nil => exact ⟨rfl, rfl⟩
  | cons seg rest =>
    obtain ⟨i, s, ch⟩ := t
    rw [mkdirLoop]
    rcases binarySearchSubPathInChildren ch seg with ⟨k, f⟩
    cases f with
    | false => exact ⟨rfl, rfl⟩
    | true =>
      simp only
      cases ch[k]? with
      | none => exact ⟨rfl, rfl⟩
      | some c => exact ⟨rfl, rfl⟩

theorem mkdirLoop_sorted (uuid : Nat → String) (segs : List String) (t : FsDirTree) (n : Nat)
    (hs : TreeSorted t) : TreeSorted (mkdirLoop uuid id segs t n).1 := by
  induction segs generalizing t n with
  | nil => exact hs
  | cons seg rest ih =>
    obtain ⟨i, s, ch⟩ := t
    have hs2 := (treeSorted_mk i s ch).1 hs
    rcases bs_cases hs2.1 seg with ⟨l1, c, l2, e, hc, hb⟩ | ⟨l1, l2, e, h1, h2, hb⟩
    · subst e
      rw [mkdirLoop_hit uuid id seg rest i s l1 l2 c n hb]
      exact treeSorted_replace hs (ih c n (hs2.2 c (by simp))) (mkdirLoop_root uuid rest c n).2
    · subst e
      rw [mkdirLoop_miss uuid id seg rest i s l1 l2 n hb]
      have hr := (mkdirLoop_root uuid rest (FsDirTree.mk (uuid n) seg []) (n + 1)).2
      refine treeSorted_insert hs (ih _ _ (treeSorted_leaf _ _)) ?_ ?_
      · intro a ha; rw [hr]; exact h1 a ha
      · intro b hb2; rw [hr]; exact h2 b hb2

/-- After the loop of `Mkdir`, the walked segments lead to the returned node. -/
theorem mkdirLoop_lookup (uuid : Nat → String) (segs : List String) (t : FsDirTree) (n : Nat)
    (hs : TreeSorted t) :
    getSubTreeLoop segs (mkdirLoop uuid id segs t n).1 = ((mkdirLoop uuid id segs t n).2.1, none) := by
  induction segs generalizing t n with
  | nil => rfl
  | cons seg rest ih =>
    obtain ⟨i, s, ch⟩ := t
    have hs2 := (treeSorted_mk i s ch).1 hs
    rcases bs_cases hs2.1 seg with ⟨l1, c, l2, e, hc, hb⟩ | ⟨l1, l2, e, h1, h2, hb⟩
    · subst e
      rw [mkdirLoop_hit uuid id seg rest i s l1 l2 c n hb]
      have hr := (mkdirLoop_root uuid rest c n).2
      have hso := sorted_replace hs2.1 hr
      have hb2 := bs_hit hso
      rw [hr, hc] at hb2
      rw [getSubTreeLoop_hit seg rest i s l1 l2 _ hb2]
      exact ih c n (hs2.2 c (by simp))
    · subst e
      rw [mkdirLoop_miss uuid id seg rest i s l1 l2 n hb]
      have hr := (mkdirLoop_root uuid rest (FsDirTree.mk (uuid n) seg []) (n + 1)).2
      have hso : SortedChildren
          (l1 ++ (mkdirLoop uuid id rest (FsDirTree.mk (uuid n) seg []) (n + 1)).1 :: l2) :=
        sorted_insert hs2.1 (by intro a ha; rw [hr]; exact h1 a ha)
          (by intro b hb2; rw [hr]; exact h2 b hb2)
      have hb2 := bs_hit hso
      rw [hr] at hb2
      rw [getSubTreeLoop_hit seg rest i s l1 l2 _ hb2]
      exact ih _ _ (treeSorted_leaf _ _)

/-- Running the loop of `Mkdir` again on its own result changes nothing. -/
theorem mkdirLoop_idem (uuid : Nat → String) (segs : List String) (t : FsDirTree) (n : Nat)
    (hs : TreeSorted t) :
    mkdirLoop uuid id segs (mkdirLoop uuid id segs t n).1 (mkdirLoop uuid id segs t n).2.2 =
      mkdirLoop uuid id segs t n := by
  induction segs generalizing t n with
  | nil => rfl
  | cons seg rest ih =>
    obtain ⟨i, s, ch⟩ := t
    have hs2 := (treeSorted_mk i s ch).1 hs
    rcases bs_cases hs2.1 seg with ⟨l1, c, l2, e, hc, hb⟩ | ⟨l1, l2, e, h1, h2, hb⟩
    · subst e
      rw [mkdirLoop_hit uuid id seg rest i s l1 l2 c n hb]
      have hr := (mkdirLoop_root uuid rest c n).2
      have hso := sorted_replace hs2.1 hr
      have hb2 := bs_hit hso
      rw [hr, hc] at hb2
      simp only
      rw [mkdirLoop_hit uuid id seg rest i s l1 l2 _ _ hb2, ih c n (hs2.2 c (by simp))]
    · subst e
      rw [mkdirLoop_miss uuid id seg rest i s l1 l2 n hb]
      have hr := (mkdirLoop_root uuid rest (FsDirTree.mk (uuid n) seg []) (n + 1)).2
      have hso : SortedChildren
          (l1 ++ (mkdirLoop uuid id rest (FsDirTree.mk (uuid n) seg []) (n + 1)).1 :: l2) :=
        sorted_insert hs2.1 (by intro a ha; rw [hr]; exact h1 a ha)
          (by intro b hb2; rw [hr]; exact h2 b hb2)
      have hb2 := bs_hit hso
      rw [hr] at hb2
      simp only
      rw [mkdirLoop_hit uuid id seg rest i s l1 l2 _ _ hb2, ih _ _ (treeSorted_leaf _ _)]

/-- The loop of `Mkdir` keeps every node that could be looked up, with its
`Id` and `SubPath`. -/
theorem mkdirLoop_preserve (uuid : Nat → String) (segs : List String) (t : FsDirTree) (n : Nat)
    (hs : TreeSorted t) (q : List String) (m : FsDirTree) (hm : naiveLookup q t = some m) :
    ∃ m1, naiveLookup q (mkdirLoop uuid id segs t n).1 = some m1 ∧ m1.Id = m.Id ∧
      m1.SubPath = m.SubPath := by
  induction segs generalizing t n q m with
  | nil => exact ⟨m, hm, rfl, rfl⟩
  | cons seg rest ih =>
    cases q with
    | nil =>
      simp only [naiveLookup, Option.some.injEq] at hm
      subst hm
      exact ⟨_, rfl, mkdirLoop_root uuid _ _ n⟩
    | cons x q =>
      obtain ⟨i, s, ch⟩ := t
      have hs2 := (treeSorted_mk i s ch).1 hs
      rcases bs_cases hs2.1 seg with ⟨l1, c, l2, e, hc, hb⟩ | ⟨l1, l2, e, h1, h2, hb⟩
      · subst e
        rw [mkdirLoop_hit uuid id seg rest i s l1 l2 c n hb]
        have hr := (mkdirLoop_root uuid rest c n).2
        by_cases hx : x = seg
        · subst hx
          have hf := find_hit hs2.1
          rw [hc] at hf
          have hf2 := find_hit (sorted_replace hs2.1 hr)
          rw [hr, hc] at hf2
          simp only [naiveLookup, FsDirTree.Children, hf] at hm
          simp only [naiveLookup, FsDirTree.Children, hf2]
          exact ih c n (hs2.2 c (by simp)) q m hm
        · have h1 : c.SubPath ≠ x := by rw [hc]; exact fun e => hx e.symm
          have h2 : (mkdirLoop uuid id rest c n).1.SubPath ≠ x := by rw [hr]; exact h1
          simp only [naiveLookup, FsDirTree.Children, find_skip h1] at hm
          simp only [naiveLookup, FsDirTree.Children, find_skip h2]
          exact ⟨m, hm, rfl, rfl⟩
      · subst e
        rw [mkdirLoop_miss uuid id seg rest i s l1 l2 n hb]
        have hr := (mkdirLoop_root uuid rest (FsDirTree.mk (uuid n) seg []) (n + 1)).2
        by_cases hx : x = seg
        · subst hx
          simp only [naiveLookup, FsDirTree.Children, find_miss h1 h2] at hm
          cases hm
        · have h3 : (mkdirLoop uuid id rest (FsDirTree.mk (uuid n) seg []) (n + 1)).1.SubPath ≠ x := by
            rw [hr]; exact fun e => hx e.symm
          simp only [naiveLookup, FsDirTree.Children, find_skip h3]
          exact ⟨m, hm, rfl, rfl⟩

/-! ## Rmdir -/

theorem Id_mk (i s : String) (ch : List FsDirTree) : (FsDirTree.mk i s ch).Id = i := rfl

theorem SubPath_mk (i s : String) (ch : List FsDirTree) : (FsDirTree.mk i s ch).SubPath = s := rfl

theorem Children_mk (i s : String) (ch : List FsDirTree) :
    (FsDirTree.mk i s ch).Children = ch := rfl

theorem set_self {ch : List FsDirTree} {k : Nat} {c : FsDirTree} (h : ch[k]? = some c) :
    ch.set k c = ch := by
  induction ch generalizing k with
  | nil => rfl
  | cons a ch ih =>
    cases k with
    | zero => simp at h; simp [h]
    | succ k => simp at h; simp [ih h]

theorem rmdirLoop_root (segs : List String) (t : FsDirTree) :
    (rmdirLoop segs t).1.Id = t.Id ∧ (rmdirLoop segs t).1.SubPath = t.SubPath := by
  cases segs with
  | nil => exact ⟨rfl, rfl⟩
  | cons seg rest =>
    obtain ⟨i, s, ch⟩ := t
    rw [rmdirLoop]
    rcases binarySearchSubPathInChildren ch seg with ⟨k, f⟩
    cases f with
    | false => exact ⟨rfl, rfl⟩
    | true =>
      simp only
      cases ch[k]? with
      | none => exact ⟨rfl, rfl⟩
      | some c =>
        cases rest with
        | nil => exact ⟨rfl, rfl⟩
        | cons seg2 rest => exact ⟨rfl, rfl⟩

/-- The loop of `Rmdir` returns what the loop of `GetSubTree` returns. -/
theorem rmdirLoop_ret (segs : List String) (t : FsDirTree) :
    (rmdirLoop segs t).2 = getSubTreeLoop segs t := by
  induction segs generalizing t with
  | nil => rfl
  | cons seg rest ih =>
    obtain ⟨i, s, ch⟩ := t
    rw [rmdirLoop, getSubTreeLoop]
    simp only [FsDirTree.Children]
    rcases binarySearchSubPathInChildren ch seg with ⟨k, f⟩
    cases f with
    | false => rfl
    | true =>
      simp only
      cases ch[k]? with
      | none => rfl
      | some c =>
        simp only
        cases rest with
        | nil => rfl
        | cons seg2 rest =>
          simp only [List.isEmpty_cons, Bool.false_eq_true, if_false]
          exact ih c

/-- A failing loop of `Rmdir` leaves the receiver as it was. -/
theorem rmdirLoop_unchanged (segs : List String) (t : FsDirTree) (e : GoError)
    (h : (getSubTreeLoop segs t).2 = some e) : (rmdirLoop segs t).1 = t := by
  induction segs generalizing t with
  | nil => rfl
  | cons seg rest ih =>
    obtain ⟨i, s, ch⟩ := t
    rw [getSubTreeLoop] at h
    rw [rmdirLoop]
    simp only [FsDirTree.Children] at h
    generalize binarySearchSubPathInChildren ch seg = b at h ⊢
    obtain ⟨k, f⟩ := b
    cases f with
    | false => rfl
    | true =>
      simp only at h ⊢
      cases hc : ch[k]? with
      | none => rfl
      | some c =>
        rw [hc] at h
        simp only at h ⊢
        cases rest with
        | nil => simp [getSubTreeLoop] at h
        | cons seg2 rest =>
          simp only [List.isEmpty_cons, Bool.false_eq_true, if_false]
          rw [ih c h, set_self hc]

theorem rmdirLoop_sorted (segs : List String) (t : FsDirTree) (hs : TreeSorted t) :
    TreeSorted (rmdirLoop segs t).1 := by
  induction segs generalizing t with
  | nil => exact hs
  | cons seg rest ih =>
    obtain ⟨i, s, ch⟩ := t
    have hs2 := (treeSorted_mk i s ch).1 hs
    rcases bs_cases hs2.1 seg with ⟨l1, c, l2, e, hc, hb⟩ | ⟨l1, l2, e, h1, h2, hb⟩
    · subst e
      cases rest with
      | nil =>
        rw [rmdirLoop_hit_last seg i s l1 l2 c hb]
        exact (treeSorted_remove hs).1
      | cons seg2 rest =>
        rw [rmdirLoop_hit seg seg2 rest i s l1 l2 c hb]
        exact treeSorted_replace hs (ih c (hs2.2 c (by simp))) (rmdirLoop_root _ c).2
    · rw [rmdirLoop_miss seg rest i s ch _ hb]
      exact hs

/-- After the loop of `Rmdir` nothing can be looked up at or below the walked
segments. -/
theorem rmdirLoop_gone (segs : List String) (t : FsDirTree) (hs : TreeSorted t)
    (hne : segs ≠ []) (r : List String) :
    naiveLookup (segs ++ r) (rmdirLoop segs t).1 = none := by
  induction segs generalizing t with
  | nil => exact absurd rfl hne
  | cons seg rest ih =>
    obtain ⟨i, s, ch⟩ := t
    have hs2 := (treeSorted_mk i s ch).1 hs
    rcases bs_cases hs2.1 seg with ⟨l1, c, l2, e, hc, hb⟩ | ⟨l1, l2, e, h1, h2, hb⟩
    · subst e
      have hm := sorted_mid hs2.1
      rw [hc] at hm
      cases rest with
      | nil =>
        rw [rmdirLoop_hit_last seg i s l1 l2 c hb]
        simp only [List.cons_append, naiveLookup, FsDirTree.Children, find_miss hm.1 hm.2]
      | cons seg2 rest =>
        rw [rmdirLoop_hit seg seg2 rest i s l1 l2 c hb]
        have hr := (rmdirLoop_root (seg2 :: rest) c).2
        have hf := find_hit (sorted_replace hs2.1 hr)
        rw [hr, hc] at hf
        simp only [List.cons_append, naiveLookup, FsDirTree.Children, hf]
        exact ih c (hs2.2 c (by simp)) (by simp)
    · subst e
      rw [rmdirLoop_miss seg rest i s _ _ hb]
      simp only [List.cons_append, naiveLookup, FsDirTree.Children, find_miss h1 h2]

/-- The loop of `Rmdir` changes no node outside the removed subtree, the parent
of the removed node apart. -/
theorem rmdirLoop_other (segs : List String) (t : FsDirTree) (hs : TreeSorted t)
    (r : List String) (h1 : r ≠ segs.dropLast) (h2 : ¬ ∃ s, r = segs ++ s) :
    (naiveLookup r (rmdirLoop segs t).1).map shallow = (naiveLookup r t).map shallow := by
  induction segs generalizing t r with
  | nil => rfl
  | cons seg rest ih =>
    obtain ⟨i, s, ch⟩ := t
    have hs2 := (treeSorted_mk i s ch).1 hs
    rcases bs_cases hs2.1 seg with ⟨l1, c, l2, e, hc, hb⟩ | ⟨l1, l2, e, _, _, hb⟩
    · subst e
      cases rest with
      | nil =>
        rw [rmdirLoop_hit_last seg i s l1 l2 c hb]
        cases r with
        | nil => exact absurd rfl h1
        | cons x r =>
          have hx : c.SubPath ≠ x := by
            rw [hc]; intro e; apply h2; exact ⟨r, by rw [e]; rfl⟩
          simp only [naiveLookup, FsDirTree.Children, find_skip hx]
      | cons seg2 rest =>
        rw [rmdirLoop_hit seg seg2 rest i s l1 l2 c hb]
        have hr := rmdirLoop_root (seg2 :: rest) c
        cases r with
        | nil =>
          simp only [naiveLookup, Option.map_some', shallow, Children_mk, Id_mk, SubPath_mk,
            List.map_append, List.map_cons, hr.1, hr.2]
        | cons x r =>
          by_cases hx : x = seg
          · subst hx
            have hf := find_hit hs2.1
            rw [hc] at hf
            have hf2 := find_hit (sorted_replace hs2.1 hr.2)
            rw [hr.2, hc] at hf2
            simp only [naiveLookup, FsDirTree.Children, hf, hf2]
            apply ih c (hs2.2 c (by simp)) r
            · intro e; apply h1; rw [e]; rfl
            · rintro ⟨s2, e⟩; apply h2; exact ⟨s2, by rw [e]; rfl⟩
          · have hx1 : c.SubPath ≠ x := by rw [hc]; exact fun e => hx e.symm
            have hx2 : (rmdirLoop (seg2 :: rest) c).1.SubPath ≠ x := by rw [hr.2]; exact hx1
            simp only [naiveLookup, FsDirTree.Children, find_skip hx1, find_skip hx2]
    · rw [rmdirLoop_miss seg rest i s ch _ hb]

/-- The parent of the node removed by the loop of `Rmdir` loses exactly that
child. -/
theorem rmdirLoop_parent (segs : List String) (t n : FsDirTree) (hs : TreeSorted t)
    (hne : segs ≠ []) (hn : naiveLookup segs t = some n) :
    ∃ q l1 l2, naiveLookup segs.dropLast t = some q ∧ q.Children = l1 ++ n :: l2 ∧
      n.SubPath = segs.getLast hne ∧
      naiveLookup segs.dropLast (rmdirLoop segs t).1 =
        some (FsDirTree.mk q.Id q.SubPath (l1 ++ l2)) := by
  induction segs generalizing t with
  | nil => exact absurd rfl hne
  | cons seg rest ih =>
    obtain ⟨i, s, ch⟩ := t
    have hs2 := (treeSorted_mk i s ch).1 hs
    rcases bs_cases hs2.1 seg with ⟨l1, c, l2, e, hc, hb⟩ | ⟨l1, l2, e, h1, h2, hb⟩
    · subst e
      have hf := find_hit hs2.1
      rw [hc] at hf
      simp only [naiveLookup, FsDirTree.Children, hf] at hn
      cases rest with
      | nil =>
        simp only [naiveLookup, Option.some.injEq] at hn
        subst hn
        rw [rmdirLoop_hit_last seg i s l1 l2 c hb]
        exact ⟨FsDirTree.mk i s (l1 ++ c :: l2), l1, l2, rfl, rfl, hc, rfl⟩
      | cons seg2 rest =>
        rw [rmdirLoop_hit seg seg2 rest i s l1 l2 c hb]
        obtain ⟨q, m1, m2, hq, hch, hlast, hq2⟩ := ih c (hs2.2 c (by simp)) (by simp) hn
        have hr := (rmdirLoop_root (seg2 :: rest) c).2
        have hf2 := find_hit (sorted_replace hs2.1 hr)
        rw [hr, hc] at hf2
        refine ⟨q, m1, m2, ?_, hch, ?_, ?_⟩
        · simp only [List.dropLast_cons₂, naiveLookup, FsDirTree.Children, hf]
          exact hq
        · rw [hlast]; simp
        · simp only [List.dropLast_cons₂, naiveLookup, FsDirTree.Children, hf2]
          exact hq2
    · subst e
      simp only [naiveLookup, FsDirTree.Children, find_miss h1 h2] at hn
      cases hn

/-! ## Mvdir -/

theorem splitSlash_ne_nil (cs : List Char) : splitSlash cs ≠ [] := by
  cases cs with
  | nil => simp [splitSlash]
  | cons c cs =>
    rw [splitSlash]
    split_ifs
    · simp
    · cases splitSlash cs <;> simp

theorem Split_ne_nil (p : String) : Split p ≠ [] := by
  unfold Split
  simpa using splitSlash_ne_nil p.data

theorem mvdirLoop_root (rm : FsDirTree) (segs : List String) (t t2 : FsDirTree)
    (h : mvdirLoop rm segs t = some t2) : t2.Id = t.Id ∧ t2.SubPath = t.SubPath := by
  cases segs with
  | nil =>
    simp only [mvdirLoop, Option.some.injEq] at h
    subst h
    exact ⟨rfl, rfl⟩
  | cons seg rest =>
    obtain ⟨i, s, ch⟩ := t
    rw [mvdirLoop] at h
    generalize binarySearchSubPathInChildren ch seg = b at h
    obtain ⟨k, f⟩ := b
    cases f with
    | false =>
      simp only at h
      split_ifs at h
      simp only [Option.some.injEq] at h
      subst h
      exact ⟨rfl, rfl⟩
    | true =>
      simp only at h
      cases hc : ch[k]? with
      | none => rw [hc] at h; cases h
      | some c =>
        rw [hc] at h
        simp only at h
        cases hm : mvdirLoop rm rest c with
        | none => rw [hm] at h; cases h
        | some c2 =>
          rw [hm] at h
          simp only [Option.some.injEq] at h
          subst h
          exact ⟨rfl, rfl⟩

/-- Re-creating the removed path and writing the removed node through the
returned pointer restores the tree. -/
theorem rollback_restores (uuid : Nat → String) (segs : List String) (t rm : FsDirTree)
    (n : Nat) (hs : TreeSorted t) (hne : segs ≠ [])
    (hr : getSubTreeLoop segs t = (rm, none)) :
    mkdirLoop uuid (fun _ => rm) segs (rmdirLoop segs t).1 n = (t, rm, n + 1) := by
  induction segs generalizing t with
  | nil => exact absurd rfl hne
  | cons seg rest ih =>
    obtain ⟨i, s, ch⟩ := t
    have hs2 := (treeSorted_mk i s ch).1 hs
    rcases bs_cases hs2.1 seg with ⟨l1, c, l2, e, hc, hb⟩ | ⟨l1, l2, e, h1, h2, hb⟩
    · subst e
      rw [getSubTreeLoop_hit seg rest i s l1 l2 c hb] at hr
      cases rest with
      | nil =>
        simp only [getSubTreeLoop, Prod.mk.injEq, and_true] at hr
        subst hr
        rw [rmdirLoop_hit_last seg i s l1 l2 c hb]
        have hm := sorted_mid hs2.1
        rw [hc] at hm
        simp only
        rw [mkdirLoop_miss uuid _ seg [] i s l1 l2 n (bs_miss hm.1 hm.2)]
        simp only [mkdirLoop]
      | cons seg2 rest =>
        rw [rmdirLoop_hit seg seg2 rest i s l1 l2 c hb]
        have hroot := (rmdirLoop_root (seg2 :: rest) c).2
        have hb2 := bs_hit (sorted_replace hs2.1 hroot)
        rw [hroot, hc] at hb2
        simp only
        rw [mkdirLoop_hit uuid _ seg (seg2 :: rest) i s l1 l2 _ n hb2,
          ih c (hs2.2 c (by simp)) (by simp) hr]
    · subst e
      rw [getSubTreeLoop_miss seg rest (FsDirTree.mk i s (l1 ++ l2)) _ hb] at hr
      simp at hr

/-- With a missing ancestor of the destination the loop of `Mvdir` reaches the
reverting branch. -/
theorem mvdirLoop_none (rm : FsDirTree) (segs : List String) (t : FsDirTree)
    (hs : TreeSorted t) (h : naiveLookup segs.dropLast t = none) :
    mvdirLoop rm segs t = none := by
  induction segs generalizing t with
  | nil => simp [naiveLookup] at h
  | cons seg rest ih =>
    cases rest with
    | nil => simp [naiveLookup] at h
    | cons seg2 rest =>
      obtain ⟨i, s, ch⟩ := t
      have hs2 := (treeSorted_mk i s ch).1 hs
      rcases bs_cases hs2.1 seg with ⟨l1, c, l2, e, hc, hb⟩ | ⟨l1, l2, e, h1, h2, hb⟩
      · subst e
        have hf := find_hit hs2.1
        rw [hc] at hf
        simp only [List.dropLast_cons₂, naiveLookup, Children_mk, hf] at h
        rw [mvdirLoop_hit rm seg (seg2 :: rest) i s l1 l2 c hb,
          ih c (hs2.2 c (by simp)) h]
        rfl
      · exact mvdirLoop_miss rm seg seg2 rest i s ch _ hb

/-- Removal never makes a path resolvable. -/
theorem rmdirLoop_none (segs : List String) (t : FsDirTree) (hs : TreeSorted t)
    (q : List String) (h : naiveLookup q t = none) :
    naiveLookup q (rmdirLoop segs t).1 = none := by
  by_cases hne : segs = []
  · subst hne; exact h
  by_cases h2 : ∃ s, q = segs ++ s
  · obtain ⟨s, e⟩ := h2
    rw [e]
    exact rmdirLoop_gone segs t hs hne s
  by_cases h1 : q = segs.dropLast
  · have hseg : naiveLookup segs t = none := by
      have e : segs = segs.dropLast ++ [segs.getLast hne] := (List.dropLast_append_getLast hne).symm
      rw [e, naiveLookup_append, ← h1, h]
      rfl
    have hres : resolve segs t = none := by rw [resolve_eq_naive segs t hs]; exact hseg
    rw [rmdirLoop_unchanged segs t _ ((resolve_none_iff segs t).1 hres)]
    exact h
  · have := rmdirLoop_other segs t hs q h1 h2
    rw [h] at this
    cases hq : naiveLookup q (rmdirLoop segs t).1 with
    | none => rfl
    | some m => rw [hq] at this; cases this

theorem getSubTreeLoop_snoc (init : List String) (last : String) (t n : FsDirTree)
    (h : getSubTreeLoop (init ++ [last]) t = (n, none)) :
    ∃ q, getSubTreeLoop init t = (q, none) ∧ n ∈ q.Children ∧ n.SubPath = last := by
  induction init generalizing t with
  | nil =>
    refine ⟨t, rfl, ?_⟩
    simp only [List.nil_append, getSubTreeLoop] at h
    generalize hb : binarySearchSubPathInChildren t.Children last = b at h
    obtain ⟨k, f⟩ := b
    cases f with
    | false => simp at h
    | true =>
      obtain ⟨c, hc, hsp⟩ := bs_found hb
      simp only [hc, Prod.mk.injEq, and_true] at h
      subst h
      exact ⟨List.getElem?_mem hc, hsp⟩
  | cons x init ih =>
    simp only [List.cons_append, getSubTreeLoop] at h ⊢
    generalize binarySearchSubPathInChildren t.Children x = b at h ⊢
    obtain ⟨k, f⟩ := b
    cases f with
    | false => simp at h
    | true =>
      simp only at h ⊢
      cases hc : t.Children[k]? with
      | none => rw [hc] at h; simp at h
      | some c =>
        rw [hc] at h
        exact ih c h

/-- When the destination does not resolve and the loop of `Mvdir` does not
revert, the destination afterwards resolves to the moved node, renamed. -/
theorem mvdirLoop_moved (rm : FsDirTree) (segs : List String) (t t2 : FsDirTree)
    (hs : TreeSorted t) (hne : segs ≠ []) (hfresh : naiveLookup segs t = none)
    (h : mvdirLoop rm segs t = some t2) :
    getSubTreeLoop segs t2 = (FsDirTree.mk rm.Id (segs.getLast hne) rm.Children, none) := by
  induction segs generalizing t t2 with
  | nil => exact absurd rfl hne
  | cons seg rest ih =>
    obtain ⟨i, s, ch⟩ := t
    have hs2 := (treeSorted_mk i s ch).1 hs
    rcases bs_cases hs2.1 seg with ⟨l1, c, l2, e, hc, hb⟩ | ⟨l1, l2, e, h1, h2, hb⟩
    · subst e
      have hf := find_hit hs2.1
      rw [hc] at hf
      simp only [naiveLookup, Children_mk, hf] at hfresh
      rw [mvdirLoop_hit rm seg rest i s l1 l2 c hb] at h
      cases hm : mvdirLoop rm rest c with
      | none => rw [hm] at h; cases h
      | some c2 =>
        rw [hm] at h
        simp only [Option.map_some', Option.some.injEq] at h
        subst h
        have hroot := (mvdirLoop_root rm rest c c2 hm).2
        have hb2 := bs_hit (sorted_replace hs2.1 hroot)
        rw [hroot, hc] at hb2
        rw [getSubTreeLoop_hit seg rest i s l1 l2 c2 hb2]
        cases rest with
        | nil => simp [naiveLookup] at hfresh
        | cons seg2 rest =>
          rw [ih c c2 (hs2.2 c (by simp)) (by simp) hfresh hm]
          simp
    · subst e
      cases rest with
      | nil =>
        rw [mvdirLoop_miss_last rm seg i s l1 l2 hb] at h
        simp only [Option.some.injEq] at h
        subst h
        have hso : SortedChildren (l1 ++ FsDirTree.mk rm.Id seg rm.Children :: l2) :=
          sorted_insert hs2.1 h1 h2
        have hb2 := bs_hit hso
        rw [SubPath_mk] at hb2
        rw [getSubTreeLoop_hit seg [] i s l1 l2 _ hb2]
        rfl
      | cons seg2 rest =>
        rw [mvdirLoop_miss rm seg seg2 rest i s _ _ hb] at h
        cases h

/-! ## Test data -/

theorem testTree_sorted : TreeSorted testTree := by decide

/-! ## From loops to methods -/

theorem Mkdir_eq (uuid : Nat → String) (t : FsDirTree) (p : String) (k : Nat) (hp : p ≠ "/") :
    Mkdir uuid t p k = mkdirLoop uuid id (Split p) t k := by
  simp [Mkdir, MkdirWrite, hp]

theorem Mkdir_root (uuid : Nat → String) (t : FsDirTree) (k : Nat) :
    Mkdir uuid t "/" k = (t, t, k) := by
  simp [Mkdir, MkdirWrite]

theorem Rmdir_eq (t : FsDirTree) (p : String) (hp : p ≠ "/") :
    Rmdir t p = ((rmdirLoop (Split p) t).1, some (getSubTreeLoop (Split p) t).1,
      (getSubTreeLoop (Split p) t).2) := by
  simp only [Rmdir, hp, if_false, ← rmdirLoop_ret]

theorem getSubTreeLoop_of_naive {segs : List String} {t n : FsDirTree} (hs : TreeSorted t)
    (h : naiveLookup segs t = some n) : getSubTreeLoop segs t = (n, none) := by
  rw [← resolve_some_iff, resolve_eq_naive segs t hs]; exact h

theorem naive_of_getSubTreeLoop {segs : List String} {t n : FsDirTree} (hs : TreeSorted t)
    (h : getSubTreeLoop segs t = (n, none)) : naiveLookup segs t = some n := by
  rw [← resolve_eq_naive segs t hs, resolve_some_iff]; exact h

theorem naive_none_iff {segs : List String} {t : FsDirTree} (hs : TreeSorted t) :
    naiveLookup segs t = none ↔ (getSubTreeLoop segs t).2 ≠ none := by
  rw [← resolve_eq_naive segs t hs, resolve_none_iff]
  rcases getSubTreeLoop_err segs t with h | h <;> simp [h]

theorem segmentMissing_fails (segs : List String) (t : FsDirTree)
    (h : SegmentMissing segs t) : (getSubTreeLoop segs t).2 = some GoError.ErrDirNotFound := by
  induction segs generalizing t with
  | nil => exact absurd h (by simp [SegmentMissing])
  | cons seg rest ih =>
    rw [getSubTreeLoop]
    generalize hb : binarySearchSubPathInChildren t.Children seg = b
    obtain ⟨k, f⟩ := b
    cases f with
    | false => rfl
    | true =>
      obtain ⟨c, hc, hsp⟩ := bs_found hb
      simp only [hc]
      exact ih c (h c (List.getElem?_mem hc) hsp)

/-! ## The claims -/

/-- C6. On a tree with strictly increasing children, a second `Mkdir(p)`
right after `Mkdir(p)` returns the same tree, the same node and the same
identifier counter as the first call left: nothing changes and no identifier is
minted.  This holds for every path string, canonical or not. -/
theorem Mkdir_idempotent (uuid : Nat → String) (t : FsDirTree) (hs : TreeSorted t)
    (p : String) (k : Nat) :
    Mkdir uuid (Mkdir uuid t p k).1 p (Mkdir uuid t p k).2.2 = Mkdir uuid t p k := by
  by_cases hp : p = "/"
  · subst hp; simp [Mkdir_root]
  · rw [Mkdir_eq uuid t p k hp, Mkdir_eq uuid _ p _ hp]
    exact mkdirLoop_idem uuid (Split p) t k hs

theorem Mkdir_idempotent_witness :
    TreeSorted testTree ∧
      Mkdir testUuid (Mkdir testUuid testTree "a/x/y" 5).1 "a/x/y"
        (Mkdir testUuid testTree "a/x/y" 5).2.2 = Mkdir testUuid testTree "a/x/y" 5 :=
  ⟨by decide, Mkdir_idempotent testUuid testTree (by decide) "a/x/y" 5⟩

/-- C7. On a tree with strictly increasing children and for a path `p` other
than `"/"`, `Mkdir(p)` returns a node `n` such that afterwards `GetSubTree(p)`
succeeds and returns `n`, every initial part of the segments of `p` resolves,
and every segment list that resolved before still resolves, to a node with the
same `Id` and `SubPath` (so the nodes below it that existed before are still
found below it, with their identifiers); `Mkdir("/")` returns the root and
leaves the tree and the counter as they were. -/
theorem Mkdir_postcondition (uuid : Nat → String) (t : FsDirTree) (hs : TreeSorted t)
    (p : String) (hp : p ≠ "/") (k : Nat) :
    GetSubTree (Mkdir uuid t p k).1 p = ((Mkdir uuid t p k).2.1, none) ∧
    (∀ q s, Split p = q ++ s → (getSubTreeLoop q (Mkdir uuid t p k).1).2 = none) ∧
    (∀ q m, getSubTreeLoop q t = (m, none) →
      ∃ m1, getSubTreeLoop q (Mkdir uuid t p k).1 = (m1, none) ∧ m1.Id = m.Id ∧
        m1.SubPath = m.SubPath) ∧
    Mkdir uuid t "/" k = (t, t, k) := by
  rw [Mkdir_eq uuid t p k hp]
  have hs1 := mkdirLoop_sorted uuid (Split p) t k hs
  have hl := mkdirLoop_lookup uuid (Split p) t k hs
  refine ⟨hl, ?_, ?_, Mkdir_root uuid t k⟩
  · intro q s e
    have hn := naive_of_getSubTreeLoop hs1 hl
    rw [e] at hn hs1
    rw [e]
    rw [naiveLookup_append] at hn
    cases hq : naiveLookup q (mkdirLoop uuid id (q ++ s) t k).1 with
    | none => rw [hq] at hn; cases hn
    | some x => rw [getSubTreeLoop_of_naive hs1 hq]
  · intro q m hm
    obtain ⟨m1, h1, h2, h3⟩ :=
      mkdirLoop_preserve uuid (Split p) t k hs q m (naive_of_getSubTreeLoop hs hm)
    exact ⟨m1, getSubTreeLoop_of_naive hs1 h1, h2, h3⟩

theorem Mkdir_postcondition_witness :
    TreeSorted testTree ∧ "a/x/y" ≠ "/" ∧
      GetSubTree (Mkdir testUuid testTree "a/x/y" 5).1 "a/x/y" =
        ((Mkdir testUuid testTree "a/x/y" 5).2.1, none) :=
  ⟨by decide, by decide, (Mkdir_postcondition testUuid testTree (by decide) "a/x/y" (by decide) 5).1⟩

/-- C9. For every tree (sorted or not): `Rmdir("/")` returns an error and
leaves the tree as it was; for a path other than `"/"`, when some segment is
missing (no chain of children carries the segments, or equally `GetSubTree`
reports an error) `Rmdir` returns `ErrDirNotFound` and leaves the tree as it
was; and whenever `Rmdir` returns an error at all the tree is as it was. -/
theorem Rmdir_failure_atomic (t : FsDirTree) (p : String) :
    (p = "/" → ∃ msg, Rmdir t p = (t, none, some (GoError.Errorf msg))) ∧
    (p ≠ "/" → SegmentMissing (Split p) t →
      (Rmdir t p).1 = t ∧ (Rmdir t p).2.2 = some GoError.ErrDirNotFound) ∧
    (p ≠ "/" → (GetSubTree t p).2 ≠ none →
      (Rmdir t p).1 = t ∧ (Rmdir t p).2.2 = some GoError.ErrDirNotFound) ∧
    ((Rmdir t p).2.2 ≠ none → (Rmdir t p).1 = t) := by
  have key : p ≠ "/" → (GetSubTree t p).2 ≠ none →
      (Rmdir t p).1 = t ∧ (Rmdir t p).2.2 = some GoError.ErrDirNotFound := by
    intro hp hf
    unfold GetSubTree at hf
    rw [Rmdir_eq t p hp]
    rcases getSubTreeLoop_err (Split p) t with h | h
    · exact absurd h hf
    · exact ⟨rmdirLoop_unchanged _ _ _ h, h⟩
  refine ⟨?_, ?_, key, ?_⟩
  · intro hp; subst hp
    exact ⟨_, rfl⟩
  · intro hp hm
    apply key hp
    unfold GetSubTree
    rw [segmentMissing_fails _ _ hm]
    simp
  · intro he
    by_cases hp : p = "/"
    · subst hp; rfl
    · apply (key hp _).1
      rw [Rmdir_eq t p hp] at he
      exact he

theorem Rmdir_failure_atomic_witness :
    "a/z" ≠ "/" ∧ SegmentMissing (Split "a/z") testTree ∧
      (Rmdir testTree "a/z").1 = testTree ∧
      (Rmdir testTree "a/z").2.2 = some GoError.ErrDirNotFound :=
  ⟨by decide, by simp [SegmentMissing, testTree, FsDirTree.Children, FsDirTree.SubPath],
    (Rmdir_failure_atomic testTree "a/z").2.1 (by decide)
      (by simp [SegmentMissing, testTree, FsDirTree.Children, FsDirTree.SubPath])⟩

/-- C10. On a tree with strictly increasing children, `GetSubTree(p)` returns
node `n` without error exactly when following the segments of `p` from the
root by linear search reaches `n`, and returns `ErrDirNotFound` exactly when
the linear search finds no child of the required `SubPath` at some level.
`GetSubTree` only reads the tree.  This holds for every path string, so in
particular for every canonical path other than the root. -/
theorem GetSubTree_agrees_with_naive (t : FsDirTree) (hs : TreeSorted t) (p : String) :
    (∀ n, GetSubTree t p = (n, none) ↔ naiveLookup (Split p) t = some n) ∧
    ((GetSubTree t p).2 = some GoError.ErrDirNotFound ↔ naiveLookup (Split p) t = none) := by
  unfold GetSubTree
  refine ⟨fun n => ?_, ?_⟩
  · rw [← resolve_eq_naive _ t hs, resolve_some_iff]
  · rw [← resolve_eq_naive _ t hs, resolve_none_iff]

theorem GetSubTree_agrees_with_naive_witness :
    TreeSorted testTree ∧
      (GetSubTree testTree "a/b" = (FsDirTree.mk "2" "b" [], none) ↔
        naiveLookup (Split "a/b") testTree = some (FsDirTree.mk "2" "b" [])) :=
  ⟨by decide, (GetSubTree_agrees_with_naive testTree (by decide) "a/b").1 _⟩

/-- C8. On a tree with strictly increasing children, when a path `p` other
than `"/"` resolves to a node `n`: `Rmdir(p)` returns `n` itself (same `Id`,
`SubPath` and descendants) and no error; the parent `q` of `n` keeps its `Id`
and `SubPath` and its `Children` become the former ones with `n` taken out,
the others in the same order; every segment list other than the one of the
parent, and not at or below `p`, resolves afterwards exactly when it resolved
before, to a node with the same `Id`, `SubPath` and children; and nothing at
or below `p` resolves afterwards (`GetSubTree(p)` returns `ErrDirNotFound`). -/
theorem Rmdir_success (t : FsDirTree) (hs : TreeSorted t) (p : String) (hp : p ≠ "/")
    (n : FsDirTree) (hn : GetSubTree t p = (n, none)) :
    (Rmdir t p).2 = (some n, none) ∧
    (∃ q q1 l1 l2, getSubTreeLoop (Split p).dropLast t = (q, none) ∧
      q.Children = l1 ++ n :: l2 ∧ (Split p).getLast? = some n.SubPath ∧
      getSubTreeLoop (Split p).dropLast (Rmdir t p).1 = (q1, none) ∧
      q1.Id = q.Id ∧ q1.SubPath = q.SubPath ∧ q1.Children = l1 ++ l2) ∧
    (∀ r, r ≠ (Split p).dropLast → (¬ ∃ s, r = Split p ++ s) →
      (resolve r (Rmdir t p).1).map shallow = (resolve r t).map shallow) ∧
    (∀ s, (getSubTreeLoop (Split p ++ s) (Rmdir t p).1).2 = some GoError.ErrDirNotFound) ∧
    (GetSubTree (Rmdir t p).1 p).2 = some GoError.ErrDirNotFound := by
  unfold GetSubTree at hn ⊢
  have hne := Split_ne_nil p
  have hs1 := rmdirLoop_sorted (Split p) t hs
  rw [Rmdir_eq t p hp, hn]
  have hgone : ∀ s, (getSubTreeLoop (Split p ++ s) (rmdirLoop (Split p) t).1).2 =
      some GoError.ErrDirNotFound := by
    intro s
    rw [← resolve_none_iff, resolve_eq_naive _ _ hs1]
    exact rmdirLoop_gone (Split p) t hs hne s
  refine ⟨rfl, ?_, ?_, hgone, ?_⟩
  · obtain ⟨q, l1, l2, hq, hch, hlast, hq2⟩ :=
      rmdirLoop_parent (Split p) t n hs hne (naive_of_getSubTreeLoop hs hn)
    refine ⟨q, FsDirTree.mk q.Id q.SubPath (l1 ++ l2), l1, l2,
      getSubTreeLoop_of_naive hs hq, hch, ?_, getSubTreeLoop_of_naive hs1 hq2, rfl, rfl, rfl⟩
    rw [hlast, List.getLast?_eq_getLast _ hne]
  · intro r h1 h2
    rw [resolve_eq_naive r _ hs1, resolve_eq_naive r t hs]
    exact rmdirLoop_other (Split p) t hs r h1 h2
  · have := hgone []
    rwa [List.append_nil] at this

theorem Rmdir_success_witness :
    TreeSorted testTree ∧ "a/b" ≠ "/" ∧
      GetSubTree testTree "a/b" = (FsDirTree.mk "2" "b" [], none) ∧
      (Rmdir testTree "a/b").2 = (some (FsDirTree.mk "2" "b" []), none) :=
  ⟨by decide, by decide, by rfl,
    (Rmdir_success testTree (by decide) "a/b" (by decide) (FsDirTree.mk "2" "b" []) (by rfl)).1⟩

/-- C3, as stated, fails when `oldPath` is the root: with `x` missing,
`Mvdir("/", "x/y")` returns the error of `Rmdir("/")`, which is not
`ErrDirNotFound`. -/
theorem Mvdir_root_source_not_ErrDirNotFound :
    TreeSorted testTree ∧ Canonical "/" ∧ Canonical "x/y" ∧
      (getSubTreeLoop (Split "x/y").dropLast testTree).2 ≠ none ∧
      (Mvdir testUuid testTree "/" "x/y" 0).2.1 ≠ some GoError.ErrDirNotFound :=
  ⟨by decide, ⟨"/", by decide⟩, ⟨"x/y", by decide⟩, by decide, by decide⟩

/-- C3, amended. On a tree with strictly increasing children, for a
destination other than `"/"` one of whose proper ancestors does not exist:
`Mvdir(oldPath, newPath)` leaves the tree exactly as it was, so `GetSubTree`
of `oldPath` gives what it gave before; it returns `ErrDirNotFound` when
`oldPath` is not `"/"`, and the error of `Rmdir("/")` when it is. -/
theorem Mvdir_missing_ancestor_rollback (uuid : Nat → String) (t : FsDirTree)
    (hs : TreeSorted t) (oldPath newPath : String) (k : Nat) (hnew : newPath ≠ "/")
    (hmiss : (getSubTreeLoop (Split newPath).dropLast t).2 ≠ none) :
    (Mvdir uuid t oldPath newPath k).1 = t ∧
    (oldPath ≠ "/" → (Mvdir uuid t oldPath newPath k).2.1 = some GoError.ErrDirNotFound) ∧
    (oldPath = "/" → (Mvdir uuid t oldPath newPath k).2.1 =
      some (GoError.Errorf "can't remove the root path")) ∧
    GetSubTree (Mvdir uuid t oldPath newPath k).1 oldPath = GetSubTree t oldPath := by
  have main : (Mvdir uuid t oldPath newPath k).1 = t ∧
      (oldPath ≠ "/" → (Mvdir uuid t oldPath newPath k).2.1 = some GoError.ErrDirNotFound) ∧
      (oldPath = "/" → (Mvdir uuid t oldPath newPath k).2.1 =
        some (GoError.Errorf "can't remove the root path")) := by
    by_cases ho : oldPath = "/"
    · subst ho
      refine ⟨rfl, fun h => absurd rfl h, fun _ => rfl⟩
    · have hold : (Mvdir uuid t oldPath newPath k).1 = t ∧
          (Mvdir uuid t oldPath newPath k).2.1 = some GoError.ErrDirNotFound := by
        unfold Mvdir
        rw [Rmdir_eq t oldPath ho]
        rcases hg : getSubTreeLoop (Split oldPath) t with ⟨rm, err⟩
        cases err with
        | some e =>
          have he : (getSubTreeLoop (Split oldPath) t).2 = some e := by rw [hg]
          rcases getSubTreeLoop_err (Split oldPath) t with h | h
          · rw [h] at he; cases he
          · rw [h] at he
            simp only [Option.some.injEq] at he
            subst he
            exact ⟨rmdirLoop_unchanged _ _ _ h, rfl⟩
        | none =>
          have hs1 := rmdirLoop_sorted (Split oldPath) t hs
          have hnone : mvdirLoop rm (Split newPath) (rmdirLoop (Split oldPath) t).1 = none :=
            mvdirLoop_none rm _ _ hs1
              (rmdirLoop_none _ t hs _ ((naive_none_iff hs).2 hmiss))
          simp only [hnew, ne_eq, not_false_eq_true, if_true, hnone, MkdirWrite, ho]
          rw [rollback_restores uuid (Split oldPath) t rm k hs (Split_ne_nil _) hg]
          exact ⟨rfl, trivial⟩
      exact ⟨hold.1, fun _ => hold.2, fun h => absurd h ho⟩
  refine ⟨main.1, main.2.1, main.2.2, ?_⟩
  rw [main.1]

theorem Mvdir_missing_ancestor_rollback_witness :
    TreeSorted testTree ∧ "x/y" ≠ "/" ∧
      (getSubTreeLoop (Split "x/y").dropLast testTree).2 ≠ none ∧
      (Mvdir testUuid testTree "a/b" "x/y" 0).1 = testTree :=
  ⟨by decide, by decide, by decide,
    (Mvdir_missing_ancestor_rollback testUuid testTree (by decide) "a/b" "x/y" 0 (by decide)
      (by decide)).1⟩

theorem Mvdir_eq_of_resolved (uuid : Nat → String) (t rm : FsDirTree)
    (oldPath newPath : String) (k : Nat) (ho : oldPath ≠ "/") (hnew : newPath ≠ "/")
    (hg : getSubTreeLoop (Split oldPath) t = (rm, none)) :
    Mvdir uuid t oldPath newPath k =
      match mvdirLoop rm (Split newPath) (rmdirLoop (Split oldPath) t).1 with
      | some t2 => (t2, none, k)
      | none =>
        ((mkdirLoop uuid (fun _ => rm) (Split oldPath) (rmdirLoop (Split oldPath) t).1 k).1,
          some GoError.ErrDirNotFound,
          (mkdirLoop uuid (fun _ => rm) (Split oldPath) (rmdirLoop (Split oldPath) t).1 k).2.2) := by
  unfold Mvdir
  rw [Rmdir_eq t oldPath ho, hg]
  simp only [hnew, ne_eq, not_false_eq_true, if_true, MkdirWrite, ho]

theorem Mvdir_eq_of_unresolved (uuid : Nat → String) (t x : FsDirTree)
    (oldPath newPath : String) (k : Nat) (e : GoError) (ho : oldPath ≠ "/")
    (hg : getSubTreeLoop (Split oldPath) t = (x, some e)) :
    Mvdir uuid t oldPath newPath k = ((rmdirLoop (Split oldPath) t).1, some e, k) := by
  simp only [Mvdir, Rmdir_eq t oldPath ho, hg]

/-- C4, as stated, fails when the destination still resolves once the source
is detached: `Mvdir("c", "a")` succeeds, the child `a` of the root is the old
node `a`, not the moved node, and the moved node sits below it under its old
name `c`. -/
theorem Mvdir_existing_destination_nests :
    TreeSorted testTree ∧ Canonical "c" ∧ Canonical "a" ∧ "c" ≠ "/" ∧ "a" ≠ "/" ∧
      (Mvdir testUuid testTree "c" "a" 0).2.1 = none ∧
      (GetSubTree testTree "c").1.Id = "3" ∧
      (GetSubTree (Mvdir testUuid testTree "c" "a" 0).1 "a").1.Id = "1" ∧
      (∀ d ∈ (Mvdir testUuid testTree "c" "a" 0).1.Children, d.SubPath = "a" → d.Id ≠ "3") ∧
      (GetSubTree (Mvdir testUuid testTree "c" "a" 0).1 "a/c").2 = none ∧
      (GetSubTree (Mvdir testUuid testTree "c" "a" 0).1 "a/c").1.Id = "3" :=
  ⟨by decide, ⟨"c", by decide⟩, ⟨"a", by decide⟩, by decide, by decide, by decide, by decide,
    by decide, by decide, by decide, by decide⟩

/-- C4, amended. On a tree with strictly increasing children, for a
destination other than `"/"` that does not resolve once the source is
detached: whenever `Mvdir(oldPath, newPath)` returns no error, `oldPath`
resolved before the call to a node `rm`, and afterwards `GetSubTree(newPath)`
returns the node with the `Id` and `Children` of `rm` and the last segment of
`newPath` as its `SubPath`, which is a child of the node at the segments of
`newPath` without the last. -/
theorem Mvdir_success_fresh_destination (uuid : Nat → String) (t : FsDirTree)
    (hs : TreeSorted t) (oldPath newPath : String) (k : Nat) (hnew : newPath ≠ "/")
    (hok : (Mvdir uuid t oldPath newPath k).2.1 = none)
    (hfresh : (GetSubTree (Rmdir t oldPath).1 newPath).2 ≠ none) :
    ∃ rm last, GetSubTree t oldPath = (rm, none) ∧ (Split newPath).getLast? = some last ∧
      GetSubTree (Mvdir uuid t oldPath newPath k).1 newPath =
        (FsDirTree.mk rm.Id last rm.Children, none) ∧
      ∃ q, getSubTreeLoop (Split newPath).dropLast (Mvdir uuid t oldPath newPath k).1 =
          (q, none) ∧ FsDirTree.mk rm.Id last rm.Children ∈ q.Children := by
  by_cases ho : oldPath = "/"
  · subst ho
    exact absurd hok (by simp [Mvdir, Rmdir])
  · have hne := Split_ne_nil newPath
    rcases hg : getSubTreeLoop (Split oldPath) t with ⟨rm, err⟩
    cases err with
    | some e =>
      rw [Mvdir_eq_of_unresolved uuid t rm oldPath newPath k e ho hg] at hok
      cases hok
    | none =>
      have hM := Mvdir_eq_of_resolved uuid t rm oldPath newPath k ho hnew hg
      rw [hM] at hok
      rw [Rmdir_eq t oldPath ho] at hfresh
      have hs1 := rmdirLoop_sorted (Split oldPath) t hs
      have hf : naiveLookup (Split newPath) (rmdirLoop (Split oldPath) t).1 = none :=
        (naive_none_iff hs1).2 hfresh
      cases hm : mvdirLoop rm (Split newPath) (rmdirLoop (Split oldPath) t).1 with
      | none => rw [hm] at hok; cases hok
      | some t2 =>
        rw [hm] at hM
        rw [hM]
        have hmv := mvdirLoop_moved rm (Split newPath) _ t2 hs1 hne hf hm
        refine ⟨rm, (Split newPath).getLast hne, hg, List.getLast?_eq_getLast _ hne, hmv, ?_⟩
        have hmv2 : getSubTreeLoop ((Split newPath).dropLast ++ [(Split newPath).getLast hne]) t2 =
            (FsDirTree.mk rm.Id ((Split newPath).getLast hne) rm.Children, none) := by
          rw [List.dropLast_append_getLast hne]; exact hmv
        obtain ⟨q, hq, hmem, _⟩ := getSubTreeLoop_snoc _ _ t2 _ hmv2
        exact ⟨q, hq, hmem⟩

theorem Mvdir_success_fresh_destination_witness :
    TreeSorted testTree ∧ "c/b" ≠ "/" ∧ (Mvdir testUuid testTree "a/b" "c/b" 0).2.1 = none ∧
      (GetSubTree (Rmdir testTree "a/b").1 "c/b").2 ≠ none ∧
      ∃ rm last, GetSubTree testTree "a/b" = (rm, none) ∧
        (Split "c/b").getLast? = some last ∧
        GetSubTree (Mvdir testUuid testTree "a/b" "c/b" 0).1 "c/b" =
          (FsDirTree.mk rm.Id last rm.Children, none) ∧
        ∃ q, getSubTreeLoop (Split "c/b").dropLast (Mvdir testUuid testTree "a/b" "c/b" 0).1 =
            (q, none) ∧ FsDirTree.mk rm.Id last rm.Children ∈ q.Children :=
  ⟨by decide, by decide, by decide, by decide,
    Mvdir_success_fresh_destination testUuid testTree (by decide) "a/b" "c/b" 0 (by decide)
      (by decide) (by decide)⟩

/-- Creating a fresh leaf below an existing parent and removing it again gives
back the tree. -/
theorem mkdir_then_rmdir (uuid : Nat → String) (segs : List String) (t : FsDirTree) (k : Nat)
    (hs : TreeSorted t) (hne : segs ≠ []) (hpar : naiveLookup segs.dropLast t ≠ none)
    (hfresh : naiveLookup segs t = none) :
    (mkdirLoop uuid id segs t k).2 = (FsDirTree.mk (uuid k) (segs.getLast hne) [], k + 1) ∧
      rmdirLoop segs (mkdirLoop uuid id segs t k).1 =
        (t, FsDirTree.mk (uuid k) (segs.getLast hne) [], none) := by
  induction segs generalizing t with
  | nil => exact absurd rfl hne
  | cons seg rest ih =>
    obtain ⟨i, s, ch⟩ := t
    have hs2 := (treeSorted_mk i s ch).1 hs
    rcases bs_cases hs2.1 seg with ⟨l1, c, l2, e, hc, hb⟩ | ⟨l1, l2, e, h1, h2, hb⟩
    · subst e
      have hf := find_hit hs2.1
      rw [hc] at hf
      cases rest with
      | nil => simp [naiveLookup, Children_mk, hf] at hfresh
      | cons seg2 rest =>
        simp only [List.dropLast_cons₂, naiveLookup, Children_mk, hf] at hpar hfresh
        obtain ⟨ih1, ih2⟩ := ih c (hs2.2 c (by simp)) (by simp) hpar hfresh
        rw [mkdirLoop_hit uuid id seg (seg2 :: rest) i s l1 l2 c k hb]
        have hroot := (mkdirLoop_root uuid (seg2 :: rest) c k).2
        have hb2 := bs_hit (sorted_replace hs2.1 hroot)
        rw [hroot, hc] at hb2
        refine ⟨?_, ?_⟩
        · simp only [List.getLast_cons (List.cons_ne_nil seg2 rest)]
          exact ih1
        · simp only
          rw [rmdirLoop_hit seg seg2 rest i s l1 l2 _ hb2, ih2]
          simp only [List.getLast_cons (List.cons_ne_nil seg2 rest)]
    · subst e
      cases rest with
      | nil =>
        rw [mkdirLoop_miss uuid id seg [] i s l1 l2 k hb]
        simp only [mkdirLoop, id, List.getLast_singleton]
        have hso : SortedChildren (l1 ++ FsDirTree.mk (uuid k) seg [] :: l2) :=
          sorted_insert hs2.1 h1 h2
        have hb2 := bs_hit hso
        rw [SubPath_mk] at hb2
        exact ⟨trivial, rmdirLoop_hit_last seg i s l1 l2 _ hb2⟩
      | cons seg2 rest =>
        simp [naiveLookup, Children_mk, find_miss h1 h2] at hpar

/-- C5, as stated, fails in two ways: `Mkdir("a/b")` on the empty root creates
`a`, which `Rmdir("a/b")` leaves behind; and on a tree where `a` exists with a
child, `Mkdir("a")` changes nothing and `Rmdir("a")` then removes `a` and
what is below it. -/
theorem Mkdir_Rmdir_not_inverse :
    TreeSorted (FsDirTree.mk "r" "" []) ∧ Canonical "a/b" ∧ "a/b" ≠ "/" ∧
      (GetSubTree (FsDirTree.mk "r" "" []) "a").2 ≠ none ∧
      (GetSubTree (Rmdir (Mkdir testUuid (FsDirTree.mk "r" "" []) "a/b" 0).1 "a/b").1 "a").2 = none ∧
      TreeSorted testTree ∧ Canonical "a" ∧ "a" ≠ "/" ∧
      (GetSubTree testTree "a/b").2 = none ∧
      (GetSubTree (Rmdir (Mkdir testUuid testTree "a" 0).1 "a").1 "a/b").2 ≠ none :=
  ⟨by decide, ⟨"a/b", by decide⟩, by decide, by decide, by decide, by decide,
    ⟨"a", by decide⟩, by decide, by decide, by decide⟩

/-- C5, amended. On a tree with strictly increasing children, for a path `p`
other than `"/"` whose parent resolves and which does not itself resolve:
`Mkdir(p)` followed by `Rmdir(p)` succeeds and gives back exactly the tree
before `Mkdir(p)`, hence the same resolvable paths. -/
theorem Mkdir_then_Rmdir_fresh (uuid : Nat → String) (t : FsDirTree) (hs : TreeSorted t)
    (p : String) (hp : p ≠ "/") (k : Nat)
    (hpar : (getSubTreeLoop (Split p).dropLast t).2 = none)
    (hfresh : (GetSubTree t p).2 ≠ none) :
    (Rmdir (Mkdir uuid t p k).1 p).1 = t ∧ (Rmdir (Mkdir uuid t p k).1 p).2.2 = none ∧
      ∀ q, (getSubTreeLoop q (Rmdir (Mkdir uuid t p k).1 p).1).2 = none ↔
        (getSubTreeLoop q t).2 = none := by
  have hne := Split_ne_nil p
  have hpar2 : naiveLookup (Split p).dropLast t ≠ none := by
    rw [ne_eq, naive_none_iff hs]; simpa using hpar
  have hfresh2 : naiveLookup (Split p) t = none := (naive_none_iff hs).2 hfresh
  obtain ⟨_, h2⟩ := mkdir_then_rmdir uuid (Split p) t k hs hne hpar2 hfresh2
  have hr : (Rmdir (Mkdir uuid t p k).1 p).1 = t ∧ (Rmdir (Mkdir uuid t p k).1 p).2.2 = none := by
    rw [Mkdir_eq uuid t p k hp]
    simp only [Rmdir, hp, if_false, h2]
    exact ⟨trivial, trivial⟩
  refine ⟨hr.1, hr.2, fun q => ?_⟩
  rw [hr.1]

theorem Mkdir_then_Rmdir_fresh_witness :
    TreeSorted testTree ∧ "a/x" ≠ "/" ∧ (getSubTreeLoop (Split "a/x").dropLast testTree).2 = none ∧
      (GetSubTree testTree "a/x").2 ≠ none ∧
      (Rmdir (Mkdir testUuid testTree "a/x" 0).1 "a/x").1 = testTree :=
  ⟨by decide, by decide, by decide, by decide,
    (Mkdir_then_Rmdir_fresh testUuid testTree (by decide) "a/x" (by decide) 0 (by decide)
      (by decide)).1⟩

/-- C1, evaluated on the code. The store holds the tree `a`, `a/b`, `c` with
one file of the tenant in `a` (directory id `1`) and one in `a/b` (directory
id `2`).  The forced remove of `/a` collects only the id of `a/b`, removes `a`
from the tree and persists that, sets the deletion timestamp of the file in
`a/b`, and leaves the file in `a` without a deletion timestamp. -/
theorem forced_remove_leaves_target_files :
    (GetSubTree testStore.dirtree "a").1.Id = "1" ∧
      (Walk (GetSubTree testStore.dirtree "a").1).map FsDirTree.Id = ["2"] ∧
      (HandlePostRmdir "fs1" "/a" ["force"] 7 noFaults testStore).1.files.map
        (fun f => (f.FileSystemId, f.DirId, f.DeletedAt)) =
          [("fs1", "1", none), ("fs1", "2", some 7)] ∧
      (GetSubTree (HandlePostRmdir "fs1" "/a" ["force"] 7 noFaults testStore).1.dirtree "a").2 =
        some GoError.ErrDirNotFound ∧
      (GetSubTree (HandlePostRmdir "fs1" "/a" ["force"] 7 noFaults testStore).1.DirTreeJson "a").2 =
        some GoError.ErrDirNotFound := by
  decide

/-- C2, evaluated on the code. From the empty root, `Mkdir("a")`,
`Mkdir("b/a")`, `Mvdir("a", "b")`, all on canonical paths, end in a tree
where `b` has two children named `a`: its children are not strictly
increasing. -/
theorem Mvdir_breaks_sorted_invariant :
    Canonical "a" ∧ Canonical "b/a" ∧ Canonical "b" ∧
      ¬ TreeSorted (runOps testUuid [Op.mkdir "a", Op.mkdir "b/a", Op.mvdir "a" "b"]).1 ∧
      (GetSubTree (runOps testUuid [Op.mkdir "a", Op.mkdir "b/a", Op.mvdir "a" "b"]).1
        "b").1.Children.map FsDirTree.SubPath = ["a", "a"] :=
  ⟨⟨"a", by decide⟩, ⟨"b/a", by decide⟩, ⟨"b", by decide⟩, by decide, by decide⟩


/-! ## ParseAbsoluteFsPath -/

theorem trim_decomp (s : String) :
    ∃ pre post, s.data = pre ++ (Trim s).data ++ post ∧ (∀ c ∈ pre, c = '/') ∧
      (∀ c ∈ post, c = '/') := by
  let p : Char → Bool := fun c => decide (c = '/')
  refine ⟨s.data.takeWhile p, (((s.data.dropWhile p).reverse).takeWhile p).reverse, ?_, ?_, ?_⟩
  · have h1 : s.data = s.data.takeWhile p ++ s.data.dropWhile p :=
      (List.takeWhile_append_dropWhile p s.data).symm
    have h2 : (s.data.dropWhile p).reverse =
        ((s.data.dropWhile p).reverse).takeWhile p ++ ((s.data.dropWhile p).reverse).dropWhile p :=
      (List.takeWhile_append_dropWhile p _).symm
    have h3 : s.data.dropWhile p =
        (((s.data.dropWhile p).reverse).dropWhile p).reverse ++
          (((s.data.dropWhile p).reverse).takeWhile p).reverse := by
      have := congrArg List.reverse h2
      rwa [List.reverse_reverse, List.reverse_append] at this
    show s.data = s.data.takeWhile p ++ (((s.data.dropWhile p).reverse).dropWhile p).reverse ++
      (((s.data.dropWhile p).reverse).takeWhile p).reverse
    rw [List.append_assoc, ← h3]
    exact h1
  · intro c hc
    simpa [p] using List.mem_takeWhile_imp hc
  · intro c hc
    rw [List.mem_reverse] at hc
    simpa [p] using List.mem_takeWhile_imp hc

theorem trim_last (s : String) : (Trim s).data.getLast? ≠ some '/' := by
  let p : Char → Bool := fun c => decide (c = '/')
  show ((((s.data.dropWhile p).reverse).dropWhile p).reverse).getLast? ≠ some '/'
  rw [List.getLast?_reverse]
  have h := List.head?_dropWhile_not p ((s.data.dropWhile p).reverse)
  intro e
  rw [e] at h
  simp [p] at h

theorem trim_head (s : String) : (Trim s).data.head? ≠ some '/' := by
  let p : Char → Bool := fun c => decide (c = '/')
  obtain ⟨pre, post, e, _, _⟩ := trim_decomp s
  have hd : s.data.dropWhile p = (Trim s).data ++
      (((s.data.dropWhile p).reverse).takeWhile p).reverse := by
    have h2 : (s.data.dropWhile p).reverse =
        ((s.data.dropWhile p).reverse).takeWhile p ++ ((s.data.dropWhile p).reverse).dropWhile p :=
      (List.takeWhile_append_dropWhile p _).symm
    have := congrArg List.reverse h2
    rwa [List.reverse_reverse, List.reverse_append] at this
  have h := List.head?_dropWhile_not p s.data
  intro e2
  rw [hd, List.head?_append, e2] at h
  simp [p] at h

theorem trim_nil_iff (s : String) : (Trim s).data = [] ↔ ∀ c ∈ s.data, c = '/' := by
  constructor
  · intro h
    obtain ⟨pre, post, e, h1, h2⟩ := trim_decomp s
    rw [h, List.append_nil] at e
    intro c hc
    rw [e] at hc
    rcases List.mem_append.1 hc with hc | hc
    · exact h1 c hc
    · exact h2 c hc
  · intro h
    have hd : s.data.dropWhile (fun c => decide (c = '/')) = [] := by
      rw [List.dropWhile_eq_nil_iff]
      intro x hx
      simpa using h x hx
    show ((((s.data.dropWhile (fun c => decide (c = '/'))).reverse).dropWhile
      (fun c => decide (c = '/'))).reverse) = []
    rw [hd]
    rfl

theorem containsDoubleSlash_cons2 (x y : Char) (rest : List Char) :
    containsDoubleSlash (x :: y :: rest) =
      ((decide (x = '/') && decide (y = '/')) || containsDoubleSlash (y :: rest)) := rfl

theorem containsDoubleSlash_iff (l : List Char) :
    containsDoubleSlash l = true ↔ ∃ a b, l = a ++ '/' :: '/' :: b := by
  induction l with
  | nil => simp [containsDoubleSlash]
  | cons x rest ih =>
    cases rest with
    | nil =>
      simp only [containsDoubleSlash, Bool.false_eq_true, false_iff]
      rintro ⟨a, b, e⟩
      have := congrArg List.length e
      simp at this
      omega
    | cons y rest =>
      rw [containsDoubleSlash_cons2, Bool.or_eq_true, Bool.and_eq_true, decide_eq_true_eq,
        decide_eq_true_eq, ih]
      constructor
      · rintro (⟨rfl, rfl⟩ | ⟨a, b, e⟩)
        · exact ⟨[], rest, rfl⟩
        · exact ⟨x :: a, b, by rw [e]; rfl⟩
      · rintro ⟨a, b, e⟩
        cases a with
        | nil =>
          simp only [List.nil_append, List.cons.injEq] at e
          exact Or.inl ⟨e.1, e.2.1⟩
        | cons z a =>
          simp only [List.cons_append, List.cons.injEq] at e
          exact Or.inr ⟨a, b, e.2⟩

theorem parse_eq (raw : String) :
    ParseAbsoluteFsPath raw =
      (if (Trim raw).data = [] then "/" else Trim raw,
       if containsDoubleSlash (Trim raw).data = true then
         some (GoError.Errorf "repeating slashes not allowed")
       else none) := by
  unfold ParseAbsoluteFsPath
  by_cases h : (Trim raw).data = []
  · have h0 : (Trim raw).data.length = 0 := by rw [h]; rfl
    have hc : containsDoubleSlash ("/" : String).data = false := by decide
    simp [h, h0, hc, containsDoubleSlash]
  · have h0 : ¬ (Trim raw).data.length = 0 := by
      intro e; exact h (List.length_eq_zero.1 e)
    simp only [h0, if_false, h]
    split_ifs <;> rfl

theorem dropWhile_append_of_exists (p : Char → Bool) (u w : List Char)
    (h : ∃ c ∈ u, p c = false) : (u ++ w).dropWhile p = u.dropWhile p ++ w := by
  induction u with
  | nil => obtain ⟨c, hc, _⟩ := h; cases hc
  | cons x u ih =>
    simp only [List.cons_append, List.dropWhile_cons]
    by_cases hx : p x = true
    · simp only [hx, if_true]
      apply ih
      obtain ⟨c, hc, hpc⟩ := h
      rcases List.mem_cons.1 hc with rfl | hc
      · rw [hx] at hpc; cases hpc
      · exact ⟨c, hc, hpc⟩
    · simp [hx]

theorem exists_ne_slash_of_getLast (l : List Char) (hne : l ≠ [])
    (h : l.getLast? ≠ some '/') : ∃ c ∈ l, c ≠ '/' := by
  refine ⟨l.getLast hne, List.getLast_mem hne, ?_⟩
  intro e
  apply h
  rw [List.getLast?_eq_getLast _ hne, e]

theorem exists_ne_slash_of_head (l : List Char) (hne : l ≠ [])
    (h : l.head? ≠ some '/') : ∃ c ∈ l, c ≠ '/' := by
  cases l with
  | nil => exact absurd rfl hne
  | cons x l =>
    refine ⟨x, List.mem_cons_self _ _, ?_⟩
    intro e
    apply h
    rw [e]; rfl

theorem trim_contains_of_inner (s : String) (u v : List Char)
    (e : s.data = u ++ '/' :: '/' :: v) (hu : ∃ c ∈ u, c ≠ '/') (hv : ∃ c ∈ v, c ≠ '/') :
    containsDoubleSlash (Trim s).data = true := by
  let p : Char → Bool := fun c => decide (c = '/')
  have hu2 : ∃ c ∈ u, p c = false := by
    obtain ⟨c, hc, hne⟩ := hu
    exact ⟨c, hc, by simpa [p] using hne⟩
  have hv2 : ∃ c ∈ v.reverse, p c = false := by
    obtain ⟨c, hc, hne⟩ := hv
    exact ⟨c, List.mem_reverse.2 hc, by simpa [p] using hne⟩
  have h1 : s.data.dropWhile p = u.dropWhile p ++ '/' :: '/' :: v := by
    rw [e]; exact dropWhile_append_of_exists p u _ hu2
  have h2 : (s.data.dropWhile p).reverse =
      v.reverse ++ ('/' :: '/' :: (u.dropWhile p).reverse) := by
    rw [h1]; simp
  have h3 : ((s.data.dropWhile p).reverse).dropWhile p =
      v.reverse.dropWhile p ++ ('/' :: '/' :: (u.dropWhile p).reverse) := by
    rw [h2]; exact dropWhile_append_of_exists p _ _ hv2
  have h4 : (Trim s).data = u.dropWhile p ++ '/' :: '/' :: (v.reverse.dropWhile p).reverse := by
    show (((s.data.dropWhile p).reverse).dropWhile p).reverse = _
    rw [h3]; simp
  exact (containsDoubleSlash_iff _).2 ⟨_, _, h4⟩

/-- C12, as stated, fails: `"//"` and `"a//"` contain two consecutive `/` and
are accepted (as `"/"` and `"a"`), because the leading and trailing `/` are
stripped before the check. -/
theorem ParseAbsoluteFsPath_accepts_outer_double_slash :
    ("//" : String).data = [] ++ '/' :: '/' :: [] ∧ ParseAbsoluteFsPath "//" = ("/", none) ∧
      ("a//" : String).data = ['a'] ++ '/' :: '/' :: [] ∧
      ParseAbsoluteFsPath "a//" = ("a", none) := by
  decide

/-- C12, amended. `ParseAbsoluteFsPath` returns an error exactly when the
input contains two consecutive `/` with a character other than `/` somewhere
before them and somewhere after them, that is, when two consecutive `/` remain
once every leading and trailing `/` has been stripped. -/
theorem ParseAbsoluteFsPath_error_iff (raw : String) :
    (ParseAbsoluteFsPath raw).2 ≠ none ↔
      ∃ u v, raw.data = u ++ '/' :: '/' :: v ∧ (∃ c ∈ u, c ≠ '/') ∧ (∃ c ∈ v, c ≠ '/') := by
  rw [parse_eq]
  constructor
  · intro h
    have hc : containsDoubleSlash (Trim raw).data = true := by
      by_contra hn
      simp [hn] at h
    obtain ⟨a, b, et⟩ := (containsDoubleSlash_iff _).1 hc
    obtain ⟨pre, post, e, _, _⟩ := trim_decomp raw
    have hh := trim_head raw
    have hl := trim_last raw
    rw [et] at hh hl
    have ha : a ≠ [] := by
      intro ea; rw [ea] at hh; exact hh rfl
    have hb : b ≠ [] := by
      intro eb; rw [eb] at hl; apply hl; simp
    have hha : a.head? ≠ some '/' := by
      intro e2; apply hh
      cases a with
      | nil => exact absurd rfl ha
      | cons x a => simpa using e2
    have hlb : b.getLast? ≠ some '/' := by
      intro e2; apply hl
      have : a ++ '/' :: '/' :: b = (a ++ ['/', '/']) ++ b := by simp
      rw [this, List.getLast?_append_of_ne_nil _ hb]
      exact e2
    obtain ⟨c1, hc1, hn1⟩ := exists_ne_slash_of_head a ha hha
    obtain ⟨c2, hc2, hn2⟩ := exists_ne_slash_of_getLast b hb hlb
    refine ⟨pre ++ a, b ++ post, ?_, ⟨c1, List.mem_append_right _ hc1, hn1⟩,
      ⟨c2, List.mem_append_left _ hc2, hn2⟩⟩
    rw [e, et]; simp
  · rintro ⟨u, v, e, hu, hv⟩
    rw [trim_contains_of_inner raw u v e hu hv]
    simp

/-! ## Segments of a canonical path -/

theorem splitSlash_no_slash (l : List Char) : ∀ s ∈ splitSlash l, '/' ∉ s := by
  induction l with
  | nil => intro s hs; simp [splitSlash] at hs; subst hs; simp
  | cons c cs ih =>
    intro s hs
    rw [splitSlash] at hs
    by_cases hc : c = '/'
    · simp only [hc, if_true] at hs
      rcases List.mem_cons.1 hs with rfl | hs
      · simp
      · exact ih s hs
    · simp only [hc, if_false] at hs
      cases hsp : splitSlash cs with
      | nil => exact absurd hsp (splitSlash_ne_nil cs)
      | cons seg rest =>
        rw [hsp] at hs ih
        simp only at hs
        rcases List.mem_cons.1 hs with rfl | hs
        · intro hm
          rcases List.mem_cons.1 hm with e | hm
          · exact hc e.symm
          · exact ih seg (List.mem_cons_self _ _) hm
        · exact ih s (List.mem_cons_of_mem _ hs)

theorem splitSlash_segments_nonempty (l : List Char) (hd : containsDoubleSlash l = false)
    (hl : l.getLast? ≠ some '/') :
    (∀ s ∈ (splitSlash l).tail, s ≠ []) ∧
      (l ≠ [] → l.head? ≠ some '/' → ∀ s ∈ splitSlash l, s ≠ []) := by
  induction l with
  | nil => exact ⟨by simp [splitSlash], fun h => absurd rfl h⟩
  | cons c cs ih =>
    have hd2 : containsDoubleSlash cs = false := by
      cases cs with
      | nil => rfl
      | cons y cs =>
        rw [containsDoubleSlash_cons2] at hd
        simp only [Bool.or_eq_false_iff] at hd
        exact hd.2
    have hl2 : cs.getLast? ≠ some '/' := by
      cases cs with
      | nil => simp
      | cons y cs => simpa [List.getLast?_cons_cons] using hl
    obtain ⟨ih1, ih2⟩ := ih hd2 hl2
    by_cases hc : c = '/'
    · subst hc
      have hcs : cs ≠ [] := by
        intro e; rw [e] at hl; exact hl rfl
      have hhead : cs.head? ≠ some '/' := by
        cases cs with
        | nil => exact absurd rfl hcs
        | cons y cs =>
          rw [containsDoubleSlash_cons2] at hd
          simp only [Bool.or_eq_false_iff, Bool.and_eq_false_iff, decide_eq_false_iff_not] at hd
          intro e
          simp only [List.head?_cons, Option.some.injEq] at e
          rcases hd.1 with h | h
          · exact h trivial
          · exact h e
      refine ⟨?_, fun _ h => absurd rfl h⟩
      simp only [splitSlash, if_true, List.tail_cons]
      exact ih2 hcs hhead
    · have htail : (splitSlash (c :: cs)).tail = (splitSlash cs).tail := by
        rw [splitSlash]
        simp only [hc, if_false]
        cases hsp : splitSlash cs with
        | nil => exact absurd hsp (splitSlash_ne_nil cs)
        | cons seg rest => rfl
      refine ⟨by rw [htail]; exact ih1, ?_⟩
      intro _ _ s hs
      have hform : ∃ seg, splitSlash (c :: cs) = (c :: seg) :: (splitSlash cs).tail := by
        rw [splitSlash]
        simp only [hc, if_false]
        cases hsp : splitSlash cs with
        | nil => exact absurd hsp (splitSlash_ne_nil cs)
        | cons seg rest => exact ⟨seg, rfl⟩
      obtain ⟨seg, hf⟩ := hform
      rw [hf] at hs
      rcases List.mem_cons.1 hs with rfl | hs
      · simp
      · exact ih1 s hs

/-- C13. Whenever `ParseAbsoluteFsPath` succeeds with result `p`: `p` is `"/"`
exactly when every character of the input is `/` (the empty input included);
otherwise `p` neither starts nor ends with `/`, and `strings.Split(p, "/")` is a
non-empty list of segments each of which is non-empty and contains no `/`. -/
theorem ParseAbsoluteFsPath_canonical (raw p : String)
    (h : ParseAbsoluteFsPath raw = (p, none)) :
    (p = "/" ↔ ∀ c ∈ raw.data, c = '/') ∧
    (p ≠ "/" → p.data.head? ≠ some '/' ∧ p.data.getLast? ≠ some '/' ∧ Split p ≠ [] ∧
      ∀ s ∈ Split p, s ≠ "" ∧ '/' ∉ s.data) := by
  rw [parse_eq] at h
  simp only [Prod.mk.injEq] at h
  obtain ⟨hp, hc⟩ := h
  have hd : containsDoubleSlash (Trim raw).data = false := by
    cases hcd : containsDoubleSlash (Trim raw).data with
    | false => rfl
    | true => rw [hcd] at hc; simp at hc
  have hroot : p = "/" ↔ (Trim raw).data = [] := by
    constructor
    · intro e
      by_contra hne
      rw [if_neg hne] at hp
      have hh := trim_head raw
      rw [hp, e] at hh
      exact hh rfl
    · intro e
      rw [if_pos e] at hp
      exact hp.symm
  refine ⟨by rw [hroot, trim_nil_iff], ?_⟩
  intro hne
  have hnil : (Trim raw).data ≠ [] := fun e => hne (hroot.2 e)
  rw [if_neg hnil] at hp
  subst hp
  refine ⟨trim_head raw, trim_last raw, Split_ne_nil _, ?_⟩
  intro s hs
  unfold Split at hs
  obtain ⟨seg, hseg, rfl⟩ := List.mem_map.1 hs
  refine ⟨?_, splitSlash_no_slash _ seg hseg⟩
  intro e
  have := (splitSlash_segments_nonempty _ hd (trim_last raw)).2 hnil (trim_head raw) seg hseg
  apply this
  have : (String.mk seg).data = ("" : String).data := by rw [e]
  simpa using this

theorem ParseAbsoluteFsPath_canonical_witness :
    ParseAbsoluteFsPath "/a/b/" = ("a/b", none) ∧
      (("a/b" : String) = "/" ↔ ∀ c ∈ ("/a/b/" : String).data, c = '/') :=
  ⟨by decide, (ParseAbsoluteFsPath_canonical "/a/b/" "a/b" (by decide)).1⟩

/-- C11, evaluated on the code. `"/"` is the canonical root path, and
`GetSubTree("/")` splits it into two empty segments and looks for a child with
an empty `SubPath`: on the tree of `NewFsDirTree()` and on the tree `a`,
`a/b`, `c` it returns `ErrDirNotFound` (together with the root node). -/
theorem GetSubTree_root_path_fails :
    Canonical "/" ∧ Split "/" = ["", ""] ∧
      (GetSubTree (NewFsDirTree testUuid 0).1 "/").2 = some GoError.ErrDirNotFound ∧
      (GetSubTree testTree "/").2 = some GoError.ErrDirNotFound ∧
      (GetSubTree testTree "/").1.Id = testTree.Id :=
  ⟨⟨"/", by decide⟩, by decide, by decide, by decide, by decide⟩

/-! ## The handlers -/

/-- C14, evaluated on the code. The request paths `"//"` and `""` are
canonicalized to the root; `HandlePostMkdir` replies 400 and then, not
returning, calls `Mkdir` with the path as it came: for `"//"` three nested
nodes with an empty `SubPath` are minted (the counter goes from 9 to 12), for
`""` one, the tree is persisted, and the tree is sent as the success body. -/
theorem HandlePostMkdir_root_falls_through :
    ParseAbsoluteFsPath "//" = ("/", none) ∧ ParseAbsoluteFsPath "" = ("/", none) ∧
      (HandlePostMkdir testUuid "//" noFaults testStore 9).2.1.map Reply.status =
        [some 400, none] ∧
      (HandlePostMkdir testUuid "//" noFaults testStore 9).2.1.map Reply.isData =
        [false, true] ∧
      (HandlePostMkdir testUuid "//" noFaults testStore 9).1.dirtree.Children.map
        FsDirTree.SubPath = ["", "a", "c"] ∧
      (HandlePostMkdir testUuid "//" noFaults testStore 9).1.DirTreeJson.Children.map
        FsDirTree.SubPath = ["", "a", "c"] ∧
      (HandlePostMkdir testUuid "//" noFaults testStore 9).2.2 = 12 ∧
      (HandlePostMkdir testUuid "" noFaults testStore 9).1.DirTreeJson.Children.map
        FsDirTree.SubPath = ["", "a", "c"] ∧
      testStore.DirTreeJson.Children.map FsDirTree.SubPath = ["a", "c"] := by
  decide

theorem HandlePostRmdir_eq (fsId reqPath : String) (opts : List String) (nowTime : Nat)
    (faults : DbFaults) (st : Store) (h : (ParseAbsoluteFsPath reqPath).2 = none) :
    HandlePostRmdir fsId reqPath opts nowTime faults st =
      rmdirAfterParse fsId (requestPath reqPath) opts nowTime faults st
        (if (ParseAbsoluteFsPath reqPath).1 = "/" then
          [Reply.Message 400 "cannot remove '/' directory, it's the root path"]
         else []) := by
  unfold HandlePostRmdir requestPath
  rcases hp : ParseAbsoluteFsPath reqPath with ⟨path, err⟩
  rw [hp] at h
  simp only at h
  subst h
  by_cases hr : path = "/"
  · simp [hr]
  · simp [hr]

theorem countFiles_pos (fsId dirId : String) (files : List FsFile)
    (h : ∃ f ∈ files, f.FileSystemId = fsId ∧ f.DirId = dirId) :
    countFiles fsId dirId files > 0 := by
  obtain ⟨f, hf, h1, h2⟩ := h
  unfold countFiles
  apply @List.length_pos_of_mem _ f
  rw [List.mem_filter]
  exact ⟨hf, by simp [h1, h2]⟩

theorem parse_fst_root_iff (raw : String) :
    (ParseAbsoluteFsPath raw).1 = "/" ↔ ∀ c ∈ raw.data, c = '/' := by
  rw [parse_eq, ← trim_nil_iff]
  constructor
  · intro e
    by_contra hne
    simp only [if_neg hne] at e
    have hh := trim_head raw
    rw [e] at hh
    exact hh rfl
  · intro e
    simp only [if_pos e]

theorem Split_all_slash (raw : String) (h : ∀ c ∈ raw.data, c = '/') :
    ∃ rest, Split raw = "" :: rest := by
  unfold Split
  cases hd : raw.data with
  | nil => exact ⟨[], rfl⟩
  | cons c cs =>
    have hc : c = '/' := h c (by rw [hd]; exact List.mem_cons_self _ _)
    subst hc
    exact ⟨(splitSlash cs).map String.mk, by simp [splitSlash]⟩

theorem getSubTreeLoop_no_child (seg : String) (rest : List String) (t : FsDirTree)
    (h : ∀ c ∈ t.Children, c.SubPath ≠ seg) :
    getSubTreeLoop (seg :: rest) t = (t, some GoError.ErrDirNotFound) := by
  rw [getSubTreeLoop]
  rcases hb : binarySearchSubPathInChildren t.Children seg with ⟨k, f⟩
  cases f with
  | false => rfl
  | true =>
    obtain ⟨c, hc, hsp⟩ := bs_found hb
    exact absurd hsp (h c (List.getElem?_mem hc))

/-- C15. For every store and every request without the `force` option whose
path parses: when the directory the handler resolves has a child directory, or
a file record of the tenant with its id, `HandlePostRmdir` only sends replies
with status 400 (at least one) and leaves the store (the tree, the persisted
tree and every file record) as it was, whatever the database calls do.  For a
path other than the root the handler resolves the directory at the canonical
path.  For a request for the root, on a tree whose root has no child with an
empty `SubPath`, the handler also sends only error replies and leaves the
store as it was. -/
theorem plain_remove_nonempty_guard (fsId reqPath : String) (opts : List String)
    (nowTime : Nat) (faults : DbFaults) (st : Store)
    (hplain : opts.contains "force" = false)
    (hparse : (ParseAbsoluteFsPath reqPath).2 = none) :
    (∀ dir, GetSubTree st.dirtree (requestPath reqPath) = (dir, none) →
      (dir.Children ≠ [] ∨ ∃ f ∈ st.files, f.FileSystemId = fsId ∧ f.DirId = dir.Id) →
      (HandlePostRmdir fsId reqPath opts nowTime faults st).1 = st ∧
      (HandlePostRmdir fsId reqPath opts nowTime faults st).2 ≠ [] ∧
      ∀ r ∈ (HandlePostRmdir fsId reqPath opts nowTime faults st).2, r.status = some 400) ∧
    ((ParseAbsoluteFsPath reqPath).1 ≠ "/" →
      requestPath reqPath = (ParseAbsoluteFsPath reqPath).1) ∧
    ((ParseAbsoluteFsPath reqPath).1 = "/" → (∀ c ∈ st.dirtree.Children, c.SubPath ≠ "") →
      (HandlePostRmdir fsId reqPath opts nowTime faults st).1 = st ∧
      (HandlePostRmdir fsId reqPath opts nowTime faults st).2 ≠ [] ∧
      ∀ r ∈ (HandlePostRmdir fsId reqPath opts nowTime faults st).2, r.isData = false) := by
  refine ⟨?_, ?_, ?_⟩
  · intro dir hdir hne
    rw [HandlePostRmdir_eq fsId reqPath opts nowTime faults st hparse]
    have hsent : ∀ r ∈ (if (ParseAbsoluteFsPath reqPath).1 = "/" then
        [Reply.Message 400 "cannot remove '/' directory, it's the root path"] else []),
        r.status = some 400 := by
      intro r hr
      split_ifs at hr
      · simp only [List.mem_singleton] at hr; subst hr; rfl
      · cases hr
    generalize (if (ParseAbsoluteFsPath reqPath).1 = "/" then
        [Reply.Message 400 "cannot remove '/' directory, it's the root path"] else []) = sent
      at hsent ⊢
    have key : ∃ msg, rmdirAfterParse fsId (requestPath reqPath) opts nowTime faults st sent =
        (st, sent ++ [Reply.Message 400 msg]) := by
      unfold rmdirAfterParse
      rw [hdir]
      simp only [hplain, Bool.false_eq_true, if_false]
      by_cases h1 : dir.Children.length > 0
      · simp only [h1, if_true]; exact ⟨_, rfl⟩
      · simp only [h1, if_false]
        by_cases h2 : faults.count = true
        · simp only [h2, if_true]; exact ⟨_, rfl⟩
        · simp only [h2, if_false]
          have h3 : countFiles fsId dir.Id st.files > 0 := by
            rcases hne with hne | hne
            · exact absurd (List.length_pos.2 hne) h1
            · exact countFiles_pos _ _ _ hne
          simp only [h3, if_true]; exact ⟨_, rfl⟩
    obtain ⟨msg, e⟩ := key
    rw [e]
    refine ⟨rfl, by simp, ?_⟩
    intro r hr
    rcases List.mem_append.1 hr with hr | hr
    · exact hsent r hr
    · simp only [List.mem_singleton] at hr; subst hr; rfl
  · intro hr
    simp [requestPath, hr]
  · intro hr hno
    rw [HandlePostRmdir_eq fsId reqPath opts nowTime faults st hparse]
    have hreq : requestPath reqPath = reqPath := by simp [requestPath, hr]
    obtain ⟨rest, hsp⟩ := Split_all_slash reqPath ((parse_fst_root_iff reqPath).1 hr)
    have hg : GetSubTree st.dirtree reqPath = (st.dirtree, some GoError.ErrDirNotFound) := by
      unfold GetSubTree
      rw [hsp]
      exact getSubTreeLoop_no_child "" rest st.dirtree hno
    rw [hreq]
    unfold rmdirAfterParse
    rw [hg, if_pos hr]
    refine ⟨rfl, by simp, ?_⟩
    intro r hmem
    simp only [List.cons_append, List.nil_append, List.mem_cons, List.mem_singleton,
      List.not_mem_nil, or_false] at hmem
    rcases hmem with rfl | rfl <;> rfl

theorem plain_remove_nonempty_guard_witness :
    ([] : List String).contains "force" = false ∧ (ParseAbsoluteFsPath "/a").2 = none ∧
      GetSubTree testStore.dirtree (requestPath "/a") =
        (FsDirTree.mk "1" "a" [FsDirTree.mk "2" "b" []], none) ∧
      (HandlePostRmdir "fs1" "/a" [] 7 noFaults testStore).1 = testStore :=
  ⟨by decide, by decide, by rfl,
    ((plain_remove_nonempty_guard "fs1" "/a" [] 7 noFaults testStore (by decide) (by decide)).1
      (FsDirTree.mk "1" "a" [FsDirTree.mk "2" "b" []]) (by rfl)
      (Or.inl (by simp [FsDirTree.Children]))).1⟩

theorem softDeleteFiles_frame (fsId : String) (ids : List String) (nowTime : Nat)
    (files : List FsFile) :
    (softDeleteFiles fsId ids nowTime files).length = files.length ∧
      ∀ (i : Nat) (f : FsFile), files[i]? = some f → ¬ (f.FileSystemId = fsId ∧ f.DirId ∈ ids) →
        (softDeleteFiles fsId ids nowTime files)[i]? = some f := by
  unfold softDeleteFiles
  refine ⟨List.length_map _ _, ?_⟩
  intro i f hf hn
  rw [List.getElem?_map, hf]
  simp only [Option.map_some', Option.some.injEq]
  rw [if_neg hn]

theorem rmdirAfterParse_files (fsId path : String) (opts : List String) (nowTime : Nat)
    (faults : DbFaults) (st : Store) (sent : List Reply) :
    (rmdirAfterParse fsId path opts nowTime faults st sent).1.files = st.files ∨
      (rmdirAfterParse fsId path opts nowTime faults st sent).1.files =
        softDeleteFiles fsId ((Walk (GetSubTree st.dirtree path).1).map FsDirTree.Id) nowTime
          st.files := by
  unfold rmdirAfterParse updateFsDirTree
  rcases GetSubTree st.dirtree path with ⟨dir, err⟩
  cases err with
  | some e => left; rfl
  | none =>
    simp only
    cases hf : opts.contains "force" <;> cases hs : faults.softDelete <;>
      cases hc : faults.count <;> cases hv : faults.saveTree <;>
      by_cases h1 : dir.Children.length > 0 <;>
      by_cases h3 : countFiles fsId dir.Id st.files > 0 <;>
      rcases hR : Rmdir st.dirtree path with ⟨t1, r, _ | e⟩ <;>
      simp [h1, h3, hR]

/-- C16. For every store and every request to `HandlePostRmdir` (forced or
not), with `T` the directory the handler resolves: the file table keeps its
length, and every record of another tenant, and every record whose directory
id is not the id of `T` or of a node below `T`, is afterwards the same record
at the same place, with its deletion timestamp and every other field. -/
theorem forced_remove_frame (fsId reqPath : String) (opts : List String) (nowTime : Nat)
    (faults : DbFaults) (st : Store) :
    (HandlePostRmdir fsId reqPath opts nowTime faults st).1.files.length = st.files.length ∧
      ∀ (i : Nat) (f : FsFile), st.files[i]? = some f →
        (f.FileSystemId ≠ fsId ∨
          f.DirId ∉ ((GetSubTree st.dirtree (requestPath reqPath)).1 ::
            Walk (GetSubTree st.dirtree (requestPath reqPath)).1).map FsDirTree.Id) →
        (HandlePostRmdir fsId reqPath opts nowTime faults st).1.files[i]? = some f := by
  by_cases hparse : (ParseAbsoluteFsPath reqPath).2 = none
  · rw [HandlePostRmdir_eq fsId reqPath opts nowTime faults st hparse]
    rcases rmdirAfterParse_files fsId (requestPath reqPath) opts nowTime faults st
      (if (ParseAbsoluteFsPath reqPath).1 = "/" then
        [Reply.Message 400 "cannot remove '/' directory, it's the root path"] else []) with h | h
    · rw [h]; exact ⟨rfl, fun i f hf _ => hf⟩
    · rw [h]
      have hfr := softDeleteFiles_frame fsId
        ((Walk (GetSubTree st.dirtree (requestPath reqPath)).1).map FsDirTree.Id) nowTime st.files
      refine ⟨hfr.1, ?_⟩
      intro i f hf hcond
      apply hfr.2 i f hf
      rintro ⟨h1, h2⟩
      rcases hcond with hc | hc
      · exact hc h1
      · exact hc (List.mem_cons_of_mem _ h2)
  · have : (HandlePostRmdir fsId reqPath opts nowTime faults st).1 = st := by
      unfold HandlePostRmdir
      rcases hp : ParseAbsoluteFsPath reqPath with ⟨path, err⟩
      rw [hp] at hparse
      cases err with
      | none => exact absurd rfl hparse
      | some e => rfl
    rw [this]
    exact ⟨rfl, fun i f hf _ => hf⟩

theorem forced_remove_frame_witness :
    (testFile "f9" "3" :: testStore.files)[0]? = some (testFile "f9" "3") ∧
      (HandlePostRmdir "fs1" "/a" ["force"] 7 noFaults
        ⟨testTree, testTree, testFile "f9" "3" :: testStore.files⟩).1.files[0]? =
          some (testFile "f9" "3") :=
  ⟨by rfl,
    (forced_remove_frame "fs1" "/a" ["force"] 7 noFaults
      ⟨testTree, testTree, testFile "f9" "3" :: testStore.files⟩).2 0 (testFile "f9" "3")
      (by rfl) (Or.inr (by decide))⟩

/-! ## Walk -/

theorem walkChildren_eq (ch : List FsDirTree) :
    walkChildren ch = ch.flatMap (fun c => c :: Walk c) := by
  induction ch with
  | nil => rfl
  | cons c cs ih =>
    rw [walkChildren, ih, List.flatMap_cons]
    rfl

theorem walk_eq (r : FsDirTree) : Walk r = r.Children.flatMap (fun c => c :: Walk c) := by
  cases r with
  | mk i s ch => rw [Walk, walkChildren_eq]; rfl

mutual
theorem walk_length (r : FsDirTree) : (Walk r).length + 1 = countNodes r := by
  cases r with
  | mk i s ch =>
    rw [Walk, countNodes, walkChildren_length ch]; omega
theorem walkChildren_length (ch : List FsDirTree) :
    (walkChildren ch).length = countForest ch := by
  cases ch with
  | nil => rfl
  | cons c cs =>
    rw [walkChildren, countForest, List.length_cons, List.length_append, walkChildren_length cs,
      ← walk_length c]
    omega
end

mutual
theorem walk_descendant (r : FsDirTree) : ∀ d, d ∈ Walk r → Descendant d r := by
  cases r with
  | mk i s ch =>
    intro d hd
    rw [Walk] at hd
    obtain ⟨c, hc, h⟩ := walkChildren_descendant ch d hd
    rcases h with rfl | h
    · exact Descendant.child hc
    · exact Descendant.deeper hc h
theorem walkChildren_descendant (ch : List FsDirTree) :
    ∀ d, d ∈ walkChildren ch → ∃ c ∈ ch, d = c ∨ Descendant d c := by
  cases ch with
  | nil => intro d hd; cases hd
  | cons c cs =>
    intro d hd
    rw [walkChildren] at hd
    rcases List.mem_cons.1 hd with rfl | hd
    · exact ⟨d, List.mem_cons_self _ _, Or.inl rfl⟩
    · rcases List.mem_append.1 hd with hd | hd
      · exact ⟨c, List.mem_cons_self _ _, Or.inr (walk_descendant c d hd)⟩
      · obtain ⟨c2, hc2, h⟩ := walkChildren_descendant cs d hd
        exact ⟨c2, List.mem_cons_of_mem _ hc2, h⟩
end

theorem descendant_walk {d r : FsDirTree} (h : Descendant d r) : d ∈ Walk r := by
  induction h with
  | child hc =>
    rw [walk_eq, List.mem_flatMap]
    exact ⟨_, hc, List.mem_cons_self _ _⟩
  | deeper hc _ ih =>
    rw [walk_eq, List.mem_flatMap]
    exact ⟨_, hc, List.mem_cons_of_mem _ ih⟩

theorem countNodes_le_forest {c : FsDirTree} {ch : List FsDirTree} (h : c ∈ ch) :
    countNodes c ≤ countForest ch := by
  induction ch with
  | nil => cases h
  | cons x xs ih =>
    rw [countForest]
    rcases List.mem_cons.1 h with rfl | h
    · omega
    · have := ih h; omega

theorem child_smaller {c r : FsDirTree} (hc : c ∈ r.Children) :
    countNodes c < countNodes r := by
  cases r with
  | mk i s ch =>
    have h1 := @countNodes_le_forest c ch hc
    have h2 : countNodes (FsDirTree.mk i s ch) = 1 + countForest ch := by rw [countNodes]
    omega

theorem descendant_smaller {d r : FsDirTree} (h : Descendant d r) :
    countNodes d < countNodes r := by
  induction h with
  | child hc => exact child_smaller hc
  | deeper hc _ ih => exact lt_trans ih (child_smaller hc)

mutual
theorem walk_block (r : FsDirTree) :
    ∀ (i : Nat) (d : FsDirTree), (Walk r)[i]? = some d →
      ∃ rest, (Walk r).drop (i + 1) = Walk d ++ rest := by
  cases r with
  | mk id s ch =>
    intro i d h
    rw [Walk] at h ⊢
    exact walkChildren_block ch i d h
theorem walkChildren_block (ch : List FsDirTree) :
    ∀ (i : Nat) (d : FsDirTree), (walkChildren ch)[i]? = some d →
      ∃ rest, (walkChildren ch).drop (i + 1) = Walk d ++ rest := by
  cases ch with
  | nil => intro i d h; simp [walkChildren] at h
  | cons c cs =>
    intro i d h
    rw [walkChildren] at h ⊢
    cases i with
    | zero =>
      simp only [List.getElem?_cons_zero, Option.some.injEq] at h
      subst h
      exact ⟨walkChildren cs, rfl⟩
    | succ j =>
      simp only [List.getElem?_cons_succ] at h
      simp only [List.drop_succ_cons]
      by_cases hj : j < (Walk c).length
      · rw [List.getElem?_append_left hj] at h
        obtain ⟨rest, e⟩ := walk_block c j d h
        refine ⟨rest ++ walkChildren cs, ?_⟩
        rw [List.drop_append_of_le_length (by omega), e, List.append_assoc]
      · have hge : (Walk c).length ≤ j := by omega
        rw [List.getElem?_append_right hge] at h
        obtain ⟨rest, e⟩ := walkChildren_block cs (j - (Walk c).length) d h
        refine ⟨rest, ?_⟩
        rw [List.drop_append_eq_append_drop, List.drop_of_length_le (by omega), List.nil_append]
        have : j + 1 - (Walk c).length = j - (Walk c).length + 1 := by omega
        rw [this]
        exact e
end

/-- C17. `Walk`, with the calls of the visitor collected in order, visits for
every child in `Children` order the child and then, at once, the whole `Walk`
of that child; the visited nodes are exactly the proper descendants of the
receiver; their number is the number of nodes of the tree less the receiver;
the receiver is not among them; and after any visited node come the visits of
its own `Walk` before anything else.  `Walk` only reads the tree. -/
theorem Walk_preorder (r : FsDirTree) :
    Walk r = r.Children.flatMap (fun c => c :: Walk c) ∧
    (∀ d, d ∈ Walk r ↔ Descendant d r) ∧
    (Walk r).length + 1 = countNodes r ∧
    r ∉ Walk r ∧
    (∀ (i : Nat) (d : FsDirTree), (Walk r)[i]? = some d →
      ∃ rest, (Walk r).drop (i + 1) = Walk d ++ rest) := by
  refine ⟨walk_eq r, fun d => ⟨walk_descendant r d, descendant_walk⟩, walk_length r, ?_,
    walk_block r⟩
  intro h
  exact absurd (descendant_smaller (walk_descendant r r h)) (by omega)

theorem Walk_preorder_witness :
    (Walk testTree)[0]? = some (FsDirTree.mk "1" "a" [FsDirTree.mk "2" "b" []]) ∧
      ∃ rest, (Walk testTree).drop (0 + 1) =
        Walk (FsDirTree.mk "1" "a" [FsDirTree.mk "2" "b" []]) ++ rest :=
  ⟨by rfl, (Walk_preorder testTree).2.2.2.2 0 _ (by rfl)⟩

/-! ## Mvdir onto an existing destination, and the invariant -/

theorem getSubTreeLoop_sorted (segs : List String) (t : FsDirTree) (hs : TreeSorted t) :
    TreeSorted (getSubTreeLoop segs t).1 := by
  induction segs generalizing t with
  | nil => exact hs
  | cons seg rest ih =>
    obtain ⟨i, s, ch⟩ := t
    have hs2 := (treeSorted_mk i s ch).1 hs
    rw [getSubTreeLoop]
    simp only [Children_mk]
    rcases binarySearchSubPathInChildren ch seg with ⟨k, f⟩
    cases f with
    | false => exact hs
    | true =>
      simp only
      cases hc : ch[k]? with
      | none => exact hs
      | some c => exact ih c (hs2.2 c (List.getElem?_mem hc))

theorem treeSorted_rename (rm : FsDirTree) (seg : String) (h : TreeSorted rm) :
    TreeSorted (FsDirTree.mk rm.Id seg rm.Children) := by
  obtain ⟨i, s, ch⟩ := rm
  rw [treeSorted_mk] at h ⊢
  exact h

theorem sorted_unique {l1 l2 : List FsDirTree} {c d : FsDirTree}
    (hs : SortedChildren (l1 ++ c :: l2)) (hd : d ∈ l1 ++ c :: l2)
    (hsp : d.SubPath = c.SubPath) : d = c := by
  have hm := sorted_mid hs
  rcases List.mem_append.1 hd with hd | hd
  · exact absurd hsp (strLt_ne (hm.1 d hd))
  · rcases List.mem_cons.1 hd with rfl | hd
    · rfl
    · exact absurd hsp.symm (strLt_ne (hm.2 d hd))

/-- When the destination does not resolve and the loop of `Mvdir` does not
revert, strictly increasing children stay strictly increasing. -/
theorem mvdirLoop_sorted (rm : FsDirTree) (segs : List String) (t t2 : FsDirTree)
    (hs : TreeSorted t) (hrm : TreeSorted rm) (hfresh : naiveLookup segs t = none)
    (h : mvdirLoop rm segs t = some t2) : TreeSorted t2 := by
  induction segs generalizing t t2 with
  | nil => simp [naiveLookup] at hfresh
  | cons seg rest ih =>
    obtain ⟨i, s, ch⟩ := t
    have hs2 := (treeSorted_mk i s ch).1 hs
    rcases bs_cases hs2.1 seg with ⟨l1, c, l2, e, hc, hb⟩ | ⟨l1, l2, e, h1, h2, hb⟩
    · subst e
      have hf := find_hit hs2.1
      rw [hc] at hf
      simp only [naiveLookup, Children_mk, hf] at hfresh
      rw [mvdirLoop_hit rm seg rest i s l1 l2 c hb] at h
      cases hm : mvdirLoop rm rest c with
      | none => rw [hm] at h; cases h
      | some c2 =>
        rw [hm] at h
        simp only [Option.map_some', Option.some.injEq] at h
        subst h
        exact treeSorted_replace hs (ih c c2 (hs2.2 c (by simp)) hfresh hm)
          (mvdirLoop_root rm rest c c2 hm).2
    · subst e
      cases rest with
      | nil =>
        rw [mvdirLoop_miss_last rm seg i s l1 l2 hb] at h
        simp only [Option.some.injEq] at h
        subst h
        exact treeSorted_insert hs (treeSorted_rename rm seg hrm) h1 h2
      | cons seg2 rest =>
        rw [mvdirLoop_miss rm seg seg2 rest i s _ _ hb] at h
        cases h

/-- When the destination resolves to `D`, the loop of `Mvdir` does not revert
and afterwards the destination resolves to `D` with the moved node inserted. -/
theorem mvdirLoop_nest (rm : FsDirTree) (segs : List String) (t D : FsDirTree)
    (hs : TreeSorted t) (hD : naiveLookup segs t = some D) :
    ∃ t2, mvdirLoop rm segs t = some t2 ∧ getSubTreeLoop segs t2 = (insertMoved D rm, none) := by
  induction segs generalizing t with
  | nil =>
    simp only [naiveLookup, Option.some.injEq] at hD
    subst hD
    exact ⟨_, rfl, rfl⟩
  | cons seg rest ih =>
    obtain ⟨i, s, ch⟩ := t
    have hs2 := (treeSorted_mk i s ch).1 hs
    rcases bs_cases hs2.1 seg with ⟨l1, c, l2, e, hc, hb⟩ | ⟨l1, l2, e, h1, h2, hb⟩
    · subst e
      have hf := find_hit hs2.1
      rw [hc] at hf
      simp only [naiveLookup, Children_mk, hf] at hD
      obtain ⟨c2, hm, hg⟩ := ih c (hs2.2 c (by simp)) hD
      have hroot := (mvdirLoop_root rm rest c c2 hm).2
      have hb2 := bs_hit (sorted_replace hs2.1 hroot)
      rw [hroot, hc] at hb2
      refine ⟨FsDirTree.mk i s (l1 ++ c2 :: l2), ?_, ?_⟩
      · rw [mvdirLoop_hit rm seg rest i s l1 l2 c hb, hm]; rfl
      · rw [getSubTreeLoop_hit seg rest i s l1 l2 c2 hb2]; exact hg
    · subst e
      simp only [naiveLookup, Children_mk, find_miss h1 h2] at hD
      cases hD

/-- C18. On a tree with strictly increasing children, for paths other than
`"/"` such that `oldPath` resolves to `rm` and, once `rm` is detached,
`newPath` still resolves to `D`: `Mvdir` returns no error; the moved node is
`rm` unchanged, so its `SubPath` is still the last segment of `oldPath`; and
afterwards `newPath` resolves to `D` with `rm` inserted among its children, the
others kept in order (one child more), right before the child of `D` with the
same `SubPath` when `D` has one, so that `D` then has two children of that
`SubPath`. -/
theorem Mvdir_nests_into_existing_destination (uuid : Nat → String) (t : FsDirTree)
    (hs : TreeSorted t) (oldPath newPath : String) (k : Nat) (hold : oldPath ≠ "/")
    (hnew : newPath ≠ "/") (rm D : FsDirTree) (hrm : GetSubTree t oldPath = (rm, none))
    (hD : GetSubTree (Rmdir t oldPath).1 newPath = (D, none)) :
    (Mvdir uuid t oldPath newPath k).2.1 = none ∧
    (Split oldPath).getLast? = some rm.SubPath ∧
    ∃ l1 l2, D.Children = l1 ++ l2 ∧
      GetSubTree (Mvdir uuid t oldPath newPath k).1 newPath =
        (FsDirTree.mk D.Id D.SubPath (l1 ++ rm :: l2), none) ∧
      (l1 ++ rm :: l2).length = D.Children.length + 1 ∧
      ∀ c ∈ D.Children, c.SubPath = rm.SubPath → l2.head? = some c := by
  unfold GetSubTree at hrm hD ⊢
  rw [Rmdir_eq t oldPath hold] at hD
  simp only at hD
  have hs1 := rmdirLoop_sorted (Split oldPath) t hs
  have hne := Split_ne_nil oldPath
  obtain ⟨t2, hm, hg⟩ := mvdirLoop_nest rm (Split newPath) _ D hs1 (naive_of_getSubTreeLoop hs1 hD)
  have hM := Mvdir_eq_of_resolved uuid t rm oldPath newPath k hold hnew hrm
  rw [hm] at hM
  rw [hM]
  obtain ⟨_, _, _, _, _, hlast, _⟩ :=
    rmdirLoop_parent (Split oldPath) t rm hs hne (naive_of_getSubTreeLoop hs hrm)
  refine ⟨rfl, by rw [hlast, List.getLast?_eq_getLast _ hne], ?_⟩
  have hDs : TreeSorted D := by
    have := getSubTreeLoop_sorted (Split newPath) _ hs1
    rw [hD] at this
    exact this
  obtain ⟨di, ds, dch⟩ := D
  have hDs2 := (treeSorted_mk di ds dch).1 hDs
  simp only [Children_mk, Id_mk, SubPath_mk]
  rcases bs_cases hDs2.1 rm.SubPath with ⟨l1, c, l2, e, hc, hb⟩ | ⟨l1, l2, e, h1, h2, hb⟩
  · subst e
    refine ⟨l1, c :: l2, rfl, ?_, by simp; omega, ?_⟩
    · show getSubTreeLoop (Split newPath) t2 = _
      rw [hg]
      simp only [insertMoved, Children_mk, Id_mk, SubPath_mk, hb, sliceInsert_mid]
    · intro d hd hsp
      rw [sorted_unique hDs2.1 hd (hsp.trans hc.symm)]
      rfl
  · subst e
    refine ⟨l1, l2, rfl, ?_, by simp; omega, ?_⟩
    · show getSubTreeLoop (Split newPath) t2 = _
      rw [hg]
      simp only [insertMoved, Children_mk, Id_mk, SubPath_mk, hb, sliceInsert_mid]
    · intro d hd hsp
      rcases List.mem_append.1 hd with hd | hd
      · exact absurd hsp (strLt_ne (h1 d hd))
      · exact absurd hsp.symm (strLt_ne (h2 d hd))

theorem Mvdir_nests_into_existing_destination_witness :
    TreeSorted testTree ∧ "c" ≠ "/" ∧ "a" ≠ "/" ∧
      GetSubTree testTree "c" = (FsDirTree.mk "3" "c" [], none) ∧
      GetSubTree (Rmdir testTree "c").1 "a" =
        (FsDirTree.mk "1" "a" [FsDirTree.mk "2" "b" []], none) ∧
      (Mvdir testUuid testTree "c" "a" 0).2.1 = none :=
  ⟨by decide, by decide, by decide, by rfl, by rfl,
    (Mvdir_nests_into_existing_destination testUuid testTree (by decide) "c" "a" 0 (by decide)
      (by decide) (FsDirTree.mk "3" "c" []) (FsDirTree.mk "1" "a" [FsDirTree.mk "2" "b" []])
      (by rfl) (by rfl)).1⟩

/-- C19. When every node of the tree has strictly increasing children, so
has every node of the tree after `Mkdir(p)`, after `Rmdir(p)`, and after
`Mvdir(oldPath, newPath)` whenever `newPath` is not `"/"` and does not resolve
in the tree `Rmdir(oldPath)` leaves.  This holds for every path string, so in
particular for canonical ones. -/
theorem sorted_invariant_preserved (uuid : Nat → String) (t : FsDirTree) (hs : TreeSorted t) :
    (∀ p k, TreeSorted (Mkdir uuid t p k).1) ∧
    (∀ p, TreeSorted (Rmdir t p).1) ∧
    (∀ oldPath newPath k, newPath ≠ "/" →
      (GetSubTree (Rmdir t oldPath).1 newPath).2 ≠ none →
      TreeSorted (Mvdir uuid t oldPath newPath k).1) := by
  have hrm : ∀ p, TreeSorted (Rmdir t p).1 := by
    intro p
    by_cases hp : p = "/"
    · subst hp; exact hs
    · rw [Rmdir_eq t p hp]; exact rmdirLoop_sorted _ t hs
  refine ⟨?_, hrm, ?_⟩
  · intro p k
    by_cases hp : p = "/"
    · subst hp; rw [Mkdir_root]; exact hs
    · rw [Mkdir_eq uuid t p k hp]; exact mkdirLoop_sorted uuid _ t k hs
  · intro oldPath newPath k hnew hfresh
    by_cases ho : oldPath = "/"
    · subst ho; exact hs
    · rcases hg : getSubTreeLoop (Split oldPath) t with ⟨rm, err⟩
      cases err with
      | some e =>
        rw [Mvdir_eq_of_unresolved uuid t rm oldPath newPath k e ho hg]
        exact rmdirLoop_sorted _ t hs
      | none =>
        have hM := Mvdir_eq_of_resolved uuid t rm oldPath newPath k ho hnew hg
        have hs1 := rmdirLoop_sorted (Split oldPath) t hs
        rw [Rmdir_eq t oldPath ho] at hfresh
        have hf : naiveLookup (Split newPath) (rmdirLoop (Split oldPath) t).1 = none :=
          (naive_none_iff hs1).2 hfresh
        have hrms : TreeSorted rm := by
          have := getSubTreeLoop_sorted (Split oldPath) t hs
          rw [hg] at this
          exact this
        cases hm : mvdirLoop rm (Split newPath) (rmdirLoop (Split oldPath) t).1 with
        | some t2 =>
          rw [hm] at hM
          rw [hM]
          exact mvdirLoop_sorted rm _ _ t2 hs1 hrms hf hm
        | none =>
          rw [hm] at hM
          rw [hM, rollback_restores uuid (Split oldPath) t rm k hs (Split_ne_nil _) hg]
          exact hs

theorem sorted_invariant_preserved_witness :
    TreeSorted testTree ∧ "c/b" ≠ "/" ∧ (GetSubTree (Rmdir testTree "a/b").1 "c/b").2 ≠ none ∧
      TreeSorted (Mvdir testUuid testTree "a/b" "c/b" 0).1 :=
  ⟨by decide, by decide, by decide,
    (sorted_invariant_preserved testUuid testTree (by decide)).2.2 "a/b" "c/b" 0 (by decide)
      (by decide)⟩

end Fslib
